import Mathlib

/-!
Verification development for the `ssm-env` environment-variable expansion
engine (`main.go`).  The Go program is embedded shallowly: the expander's
pure logic (`splitVar`, `parameter`, `expandEnviron`, `getParameters`,
`decryptKmsValue`, `newInvalidParametersError`) is translated into
executable Lean functions.  The external collaborators (the SSM
`GetParameters` client, the KMS `Decrypt` client) are modelled as functions
returning a Go-style pair of an optional response pointer and an optional
error, exactly as the Go interfaces do; the process environment is modelled
as an explicit list of (name, value) pairs threaded through the
computation, and every `Setenv` invocation and every issued store call is
recorded so that theorems can speak about them.
-/

set_option autoImplicit false

namespace SsmEnv

/-! ### Go string primitives (char-list level, so the kernel can evaluate) -/

/-- Go `strings.HasPrefix s pre`. -/
def goHasPre (s pre : String) : Bool :=
  pre.data.isPrefixOf s.data

/-- The cutset `"'\" "` of `strings.Trim` used on KMS payloads: single quote
(39), double quote (34) and space (32). -/
def kmsCutset : List Char := [Char.ofNat 39, Char.ofNat 34, Char.ofNat 32]

/-- Membership of a character in a `strings.Trim` cutset. -/
def inCutset (cut : List Char) (c : Char) : Bool := cut.contains c

/-- Go `strings.Trim l cut`: removes leading and trailing cutset characters. -/
def goTrim (l cut : List Char) : List Char :=
  ((l.dropWhile (inCutset cut)).reverse.dropWhile (inCutset cut)).reverse

/-- Go `strings.Split` on a single-character separator, at the char-list
level: `splitCharsOn '=' "a=b=c".data = [['a'],['b'],['c']]`.  The result is
always non-empty, mirroring `strings.Split` which returns at least one
segment. -/
def splitCharsOn (sep : Char) : List Char → List (List Char)
  | [] => [[]]
  | c :: cs =>
    match splitCharsOn sep cs with
    | [] => [[]]
    | r :: rs => if c = sep then [] :: r :: rs else (c :: r) :: rs

/-- `splitVar` (main.go:379-382): `parts := strings.Split(v, "="); return
parts[0], parts[1]`.  Go panics with an index-out-of-range when the entry
contains no `=` (fewer than two segments); that case is `none` here. -/
def splitVar (v : String) : Option (String × String) :=
  match splitCharsOn (Char.ofNat 61) v.data with
  | p0 :: p1 :: _ => some (String.mk p0, String.mk p1)
  | _ => none

/-- Go `len` of a string: its UTF-8 byte length. -/
def charBytes (c : Char) : Nat :=
  if c.toNat < 128 then 1 else if c.toNat < 2048 then 2
  else if c.toNat < 65536 then 3 else 4

/-- Go `len(s)` (byte length). -/
def goLen (s : String) : Nat := s.data.foldl (fun n c => n + charBytes c) 0

/-! ### base64.StdEncoding.DecodeString -/

/-- Index of a character in the standard base64 alphabet. -/
def b64Index (c : Char) : Option Nat :=
  let n := c.toNat
  if 65 ≤ n ∧ n ≤ 90 then some (n - 65)
  else if 97 ≤ n ∧ n ≤ 122 then some (n - 97 + 26)
  else if 48 ≤ n ∧ n ≤ 57 then some (n - 48 + 52)
  else if n = 43 then some 62
  else if n = 47 then some 63
  else none

/-- The base64 pad character `=` (61). -/
def padChar : Char := Char.ofNat 61

/-- Decode base64 input in groups of four characters, with padding allowed
only in the final group, as `base64.StdEncoding` does (Std, not Strict: no
check of unused trailing bits).  A group count not divisible by four is a
`CorruptInputError` (`none`). -/
def decodeQuads : List Char → Option (List Nat)
  | [] => some []
  | c0 :: c1 :: c2 :: c3 :: rest =>
    match b64Index c0, b64Index c1 with
    | some i0, some i1 =>
      if c2 = padChar then
        if c3 = padChar ∧ rest = [] then some [i0 * 4 + i1 / 16] else none
      else
        match b64Index c2 with
        | none => none
        | some i2 =>
          if c3 = padChar then
            if rest = [] then some [i0 * 4 + i1 / 16, i1 % 16 * 16 + i2 / 4]
            else none
          else
            match b64Index c3 with
            | none => none
            | some i3 =>
              match decodeQuads rest with
              | none => none
              | some bs =>
                some ((i0 * 4 + i1 / 16) :: (i1 % 16 * 16 + i2 / 4) ::
                      (i2 % 4 * 64 + i3) :: bs)
    | _, _ => none
  | _ => none

/-- Go `base64.StdEncoding.DecodeString`: carriage returns and newlines are
ignored wherever they occur; everything else is decoded strictly in
four-character groups. -/
def goB64Decode (s : String) : Option (List Nat) :=
  decodeQuads (s.data.filter (fun c => c ≠ Char.ofNat 13 ∧ c ≠ Char.ofNat 10))

/-! ### Data model of the store and decryption clients -/

/-- One entry of an `ssm.GetParametersOutput.Parameters` slice: `Name`,
`Value` and the optional version `Selector` (e.g. `":2"`). -/
structure Parameter where
  name : String
  value : String
  selector : Option String
deriving DecidableEq

/-- `ssm.GetParametersOutput`: resolved parameters plus the names the store
rejected (`[]*string`, so entries can be nil). -/
structure GetParametersOutput where
  parameters : List Parameter
  invalidParameters : List (Option String)
deriving DecidableEq

/-- `ssm.GetParametersInput`: the requested names and the decryption flag. -/
structure GetParametersInput where
  names : List String
  withDecryption : Bool
deriving DecidableEq

/-- The Go-level result of `ssmClient.GetParameters`: a possibly-nil response
pointer together with a possibly-nil error, exactly the two return values of
the Go interface method. -/
structure SsmCallResult where
  resp : Option GetParametersOutput
  err : Option String
deriving DecidableEq

/-- `kms.DecryptOutput`: the plaintext.  The Go `[]byte`-to-`string`
conversion of `result.Plaintext` is absorbed into this boundary. -/
structure KmsDecryptOutput where
  plaintext : String
deriving DecidableEq

/-- The Go-level result of `kmsClient.Decrypt`. -/
structure KmsCallResult where
  resp : Option KmsDecryptOutput
  err : Option String
deriving DecidableEq

/-- `ssmVar` (main.go:180-183): an environment variable name together with
the SSM parameter name its value references. -/
structure SsmVar where
  envvar : String
  parameter : String
deriving DecidableEq

/-- `kmsVar` (main.go:206-209): an environment variable name together with
the base64 payload extracted from its `!kms ` value. -/
structure KmsVar where
  envvar : String
  encoded : String
deriving DecidableEq

/-- The errors the expansion can produce.  `templateError` is a failing
template execution; `malformedParameterError` carries the full `KEY=VALUE`
entry interpolated into the Go message `"SSM parameters must have a leading
'/' (ssm:///<path>): %s"`; `callError` is an error returned by the store
client; `invalidParametersError` carries the rejected names
(`newInvalidParametersError`, nil entries dropped); `decodeError` carries
the (re-padded) payload that failed base64 decoding; `decryptError` is an
error from the KMS client; `nilDeref` marks the Go panic that dereferencing
a nil response pointer would cause; `indexOutOfRange` marks the `splitVar`
panic on an entry without `=`. -/
inductive GoError where
  | templateError (msg : String)
  | malformedParameterError (envvar : String)
  | callError (msg : String)
  | invalidParametersError (invalid : List String)
  | decodeError (payload : String)
  | decryptError (msg : String)
  | nilDeref
  | indexOutOfRange
deriving DecidableEq

/-- `expander` (main.go:185-191): the template (as the black-box function
`(Name, Value) → output-or-error` that `text/template.Execute` is), the two
clients and the batch size. -/
structure Expander where
  t : String → String → Except String String
  ssm : GetParametersInput → SsmCallResult
  kms : List Nat → KmsCallResult
  batchSize : Nat

/-- `KMSPrefix` (main.go:31): marker of KMS-encrypted values. -/
def kmsTag : String := "!kms "

/-- `(*expander).parameter` (main.go:193-204): execute the template on
(name, value); an empty output means "not an SSM parameter" (`nil`). -/
def parameter (e : Expander) (k v : String) : Except String (Option String) :=
  match e.t k v with
  | .error msg => .error msg
  | .ok p => if p = "" then .ok none else .ok (some p)

/-! ### The Go map `values` -/

/-- `values[name] = v`: replace-or-append insertion keeping keys unique. -/
def mapInsert (m : List (String × String)) (k v : String) :
    List (String × String) :=
  m.filter (fun p => p.1 ≠ k) ++ [(k, v)]

/-- `val, ok := values[k]` lookup. -/
def mapLookup (m : List (String × String)) (k : String) : Option String :=
  (m.find? (fun p => p.1 == k)).map Prod.snd

/-- The effective key of a returned parameter (main.go:320-327): the base
name with the selector appended when one is present. -/
def effectiveName (p : Parameter) : String :=
  match p.selector with
  | some s => p.name ++ s
  | none => p.name

/-- The loop of main.go:320-328 building the `values` map. -/
def buildValues (params : List Parameter) : List (String × String) :=
  params.foldl (fun m p => mapInsert m (effectiveName p) p.value) []

/-- `newInvalidParametersError` (main.go:337-347): collect the non-nil
rejected names. -/
def invalidList (resp : GetParametersOutput) : List String :=
  resp.invalidParameters.filterMap id

/-- What `(*expander).getParameters` produces: the `values` map, the
diagnostics printed to stderr, and the returned error (if any; on an error
return the map is still empty, as in the Go code both error returns happen
before the map is populated). -/
structure GetParamsResult where
  values : List (String × String)
  diags : List GoError
  err : Option GoError
deriving DecidableEq

/-- `(*expander).getParameters` (main.go:297-331).  The call error is fatal
only when `nofail` is false; a response listing invalid parameters is fatal
when `nofail` is false and a diagnostic otherwise; afterwards the response's
parameters are folded into the `values` map keyed by effective name.  When
the client returned a nil response and the error was tolerated, the Go code
dereferences the nil pointer (`resp.InvalidParameters`): `nilDeref`. -/
def getParameters (client : GetParametersInput → SsmCallResult)
    (names : List String) (decrypt nofail : Bool) : GetParamsResult :=
  let r := client { names := names, withDecryption := decrypt }
  match r.err, nofail with
  | some msg, false => { values := [], diags := [], err := some (.callError msg) }
  | _, _ =>
    match r.resp with
    | none => { values := [], diags := [], err := some .nilDeref }
    | some resp =>
      if 0 < resp.invalidParameters.length then
        if nofail then
          { values := buildValues resp.parameters
            diags := [.invalidParametersError (invalidList resp)]
            err := none }
        else
          { values := []
            diags := []
            err := some (.invalidParametersError (invalidList resp)) }
      else
        { values := buildValues resp.parameters, diags := [], err := none }

/-! ### Classification (main.go:211-248) -/

/-- The classification loop of `expandEnviron` over the `Environ()`
snapshot, with the three accumulators `ssmVars`, `kmsVars` and `uniqNames`.
A value starting with `!kms ` is a KMS variable (payload: prefix removed,
quotes and spaces trimmed); otherwise the template derives either nothing
(empty output) or a parameter name, which in strict mode must start with
`/`.  `uniqNames` is the Go `map[string]bool` of distinct parameter names,
kept here in first-insertion order (Go's map iteration order is unspecified;
the claims' properties do not depend on the enumeration order). -/
def classifyLoop (e : Expander) (nofail : Bool) :
    List String → List SsmVar → List KmsVar → List String →
    Except GoError (List SsmVar × List KmsVar × List String)
  | [], ssmVars, kmsVars, uniq => .ok (ssmVars, kmsVars, uniq)
  | envvar :: rest, ssmVars, kmsVars, uniq =>
    match splitVar envvar with
    | none => .error .indexOutOfRange
    | some (k, v) =>
      if goHasPre v kmsTag then
        let encodedPart := String.mk (goTrim (v.data.drop kmsTag.data.length) kmsCutset)
        classifyLoop e nofail rest ssmVars (kmsVars ++ [⟨k, encodedPart⟩]) uniq
      else
        match parameter e k v with
        | .error msg => .error (.templateError msg)
        | .ok none => classifyLoop e nofail rest ssmVars kmsVars uniq
        | .ok (some p) =>
          if ¬ goHasPre p "/" ∧ ¬ nofail then
            .error (.malformedParameterError envvar)
          else
            classifyLoop e nofail rest (ssmVars ++ [⟨k, p⟩]) kmsVars
              (if p ∈ uniq then uniq else uniq ++ [p])

/-- Structural helper for `chunkList`: the fuel is an upper bound on the
list length, so the recursion is structural and kernel-reducible. -/
def chunkFuel (bs : Nat) : Nat → List String → List (List String)
  | _, [] => []
  | 0, _ :: _ => []
  | fuel + 1, x :: xs => (x :: xs.take (bs - 1)) :: chunkFuel bs fuel (xs.drop (bs - 1))

/-- The batching loop bounds of main.go:259-264: slices of `names` of at
most `bs` elements, in order.  (For `bs = 0` the Go loop would not
terminate; the program always uses `batchSize = 10`, and every claim about
batching assumes a positive limit.) -/
def chunkList (bs : Nat) (l : List String) : List (List String) :=
  chunkFuel bs l.length l

/-- The fuel of `chunkFuel` is irrelevant once it bounds the list length. -/
theorem chunkFuel_congr (bs : Nat) :
    ∀ (f1 f2 : Nat) (l : List String), l.length ≤ f1 → l.length ≤ f2 →
      chunkFuel bs f1 l = chunkFuel bs f2 l := by
  intro f1
  induction f1 with
  | zero =>
    intro f2 l h1 _
    match l, f2 with
    | [], 0 => rfl
    | [], _ + 1 => rfl
    | x :: xs, _ => simp at h1
  | succ f ih =>
    intro f2 l h1 h2
    match l, f2 with
    | [], 0 => rfl
    | [], _ + 1 => rfl
    | x :: xs, 0 => simp at h2
    | x :: xs, g + 1 =>
      simp only [chunkFuel]
      have hlen : (xs.drop (bs - 1)).length ≤ f := by
        simp only [List.length_drop]
        simp only [List.length_cons] at h1
        omega
      have hlen2 : (xs.drop (bs - 1)).length ≤ g := by
        simp only [List.length_drop]
        simp only [List.length_cons] at h2
        omega
      rw [ih g (xs.drop (bs - 1)) hlen hlen2]

/-- The defining equation of `chunkList` on a non-empty list. -/
theorem chunkList_cons (bs : Nat) (x : String) (xs : List String) :
    chunkList bs (x :: xs) = (x :: xs.take (bs - 1)) :: chunkList bs (xs.drop (bs - 1)) := by
  simp only [chunkList, List.length_cons, chunkFuel]
  congr 1
  exact chunkFuel_congr bs xs.length (xs.drop (bs - 1)).length (xs.drop (bs - 1))
    (by simp only [List.length_drop]; omega) (Nat.le_refl _)

@[simp] theorem chunkList_nil (bs : Nat) : chunkList bs [] = [] := rfl

/-! ### The two resolution phases -/

/-- The mutable observable state while `expandEnviron` runs: the process
environment plus the log of issued store calls, `Setenv` invocations and
stderr diagnostics. -/
structure ExpandState where
  env : List (String × String)
  ssmCalls : List (List String)
  setenvCalls : List (String × String)
  diags : List GoError
deriving DecidableEq

/-- `os.Setenv` on the modelled environment: overwrite in place when the
name exists, append otherwise. -/
def setenv (env : List (String × String)) (k v : String) :
    List (String × String) :=
  if env.any (fun p => p.1 == k) then
    env.map (fun p => if p.1 == k then (k, v) else p)
  else env ++ [(k, v)]

/-- The apply loop of main.go:270-275: for every `ssmVar`, if the current
batch's `values` map resolves its parameter, `Setenv` the variable. -/
def applySsmValues (ssmVars : List SsmVar) (values : List (String × String))
    (st : ExpandState) : ExpandState :=
  ssmVars.foldl
    (fun st sv =>
      match mapLookup values sv.parameter with
      | some val =>
        { st with env := setenv st.env sv.envvar val
                  setenvCalls := st.setenvCalls ++ [(sv.envvar, val)] }
      | none => st) st

/-- The batch loop of main.go:259-276: one `getParameters` call per batch;
a returned error aborts the expansion (state reached so far is kept — Go
does not roll back earlier batches). -/
def ssmPhase (e : Expander) (decrypt nofail : Bool) (ssmVars : List SsmVar) :
    List (List String) → ExpandState → ExpandState × Option GoError
  | [], st => (st, none)
  | batch :: rest, st =>
    let gp := getParameters e.ssm batch decrypt nofail
    let st1 : ExpandState :=
      { st with ssmCalls := st.ssmCalls ++ [batch], diags := st.diags ++ gp.diags }
    match gp.err with
    | some err => (st1, some err)
    | none => ssmPhase e decrypt nofail ssmVars rest (applySsmValues ssmVars gp.values st1)

/-- The padding step of `decryptKmsValue` (main.go:355-360): append `=` up
to a multiple of four bytes (`padding := len(encodedValue) %% 4`). -/
def kmsPad (encodedValue : String) : String :=
  if goLen encodedValue % 4 ≠ 0 then
    encodedValue ++ String.mk (List.replicate (4 - goLen encodedValue % 4) padChar)
  else encodedValue

/-- `(*expander).decryptKmsValue` (main.go:353-377): re-pad, base64-decode
(failure: `failed to decode base64 value`), call the KMS client, return the
plaintext.  The `nofail` parameter is accepted and ignored exactly as in the
Go function (the caller applies the policy). -/
def decryptKmsValue (e : Expander) (encodedValue : String) (nofail : Bool) :
    Except GoError String :=
  let _ := nofail
  let padded := kmsPad encodedValue
  match goB64Decode padded with
  | none => .error (.decodeError padded)
  | some decodedBytes =>
    let r := e.kms decodedBytes
    match r.err with
    | some msg => .error (.decryptError msg)
    | none =>
      match r.resp with
      | none => .error .nilDeref
      | some out => .ok out.plaintext

/-- The KMS loop of main.go:280-292: per variable, decrypt; on failure with
`nofail` emit a diagnostic and continue, otherwise abort (Go wraps the error
message with `failed to decrypt KMS value:`); on success `Setenv` the
plaintext. -/
def kmsPhase (e : Expander) (nofail : Bool) :
    List KmsVar → ExpandState → ExpandState × Option GoError
  | [], st => (st, none)
  | kv :: rest, st =>
    match decryptKmsValue e kv.encoded nofail with
    | .error err =>
      if nofail then kmsPhase e nofail rest { st with diags := st.diags ++ [err] }
      else (st, some err)
    | .ok val =>
      kmsPhase e nofail rest
        { st with env := setenv st.env kv.envvar val
                  setenvCalls := st.setenvCalls ++ [(kv.envvar, val)] }

/-! ### expandEnviron -/

/-- Rendering of the modelled environment as the `KEY=VALUE` strings that
`Environ()` returns. -/
def environList (env : List (String × String)) : List String :=
  env.map (fun p => p.1 ++ "=" ++ p.2)

/-- The observable outcome of one `expandEnviron` pass. -/
structure ExpandResult where
  env : List (String × String)
  ssmCalls : List (List String)
  setenvCalls : List (String × String)
  diags : List GoError
  err : Option GoError
deriving DecidableEq

/-- `(*expander).expandEnviron` (main.go:211-295): classify every current
entry, resolve the deduplicated parameter names batch by batch, then process
the KMS variables.  The `if len(uniqNames) > 0` and `if len(kmsVars) > 0`
guards of the Go code are subsumed by the phases doing nothing on empty
lists. -/
def expandEnviron (e : Expander) (decrypt nofail : Bool)
    (env0 : List (String × String)) : ExpandResult :=
  match classifyLoop e nofail (environList env0) [] [] [] with
  | .error err =>
    { env := env0, ssmCalls := [], setenvCalls := [], diags := [], err := some err }
  | .ok (ssmVars, kmsVars, uniq) =>
    let st0 : ExpandState :=
      { env := env0, ssmCalls := [], setenvCalls := [], diags := [] }
    let r1 := ssmPhase e decrypt nofail ssmVars (chunkList e.batchSize uniq) st0
    match r1.2 with
    | some err =>
      { env := r1.1.env, ssmCalls := r1.1.ssmCalls
        setenvCalls := r1.1.setenvCalls, diags := r1.1.diags, err := some err }
    | none =>
      let r2 := kmsPhase e nofail kmsVars r1.1
      { env := r2.1.env, ssmCalls := r2.1.ssmCalls
        setenvCalls := r2.1.setenvCalls, diags := r2.1.diags, err := r2.2 }

/-- `DefaultTemplate` (main.go:24): `{{ if hasPrefix .Value "ssm://" }}{{
trimPrefix .Value "ssm://" }}{{ end }}` as the function it denotes. -/
def defaultTmpl : String → String → Except String String :=
  fun _ v => .ok (if goHasPre v "ssm://" then String.mk (v.data.drop 6) else "")

/-! ### Derived notions used by the theorems -/

/-- Folding a list of recorded `Setenv` invocations over an environment. -/
def applyCalls (env : List (String × String)) (calls : List (String × String)) :
    List (String × String) :=
  calls.foldl (fun env c => setenv env c.1 c.2) env

/-- The value of the last `Setenv` call for a given name, if any. -/
def lastSet (n : String) : List (String × String) → Option String
  | [] => none
  | c :: cs =>
    match lastSet n cs with
    | some v => some v
    | none => if c.1 == n then some c.2 else none

/-- The `Setenv` invocations one batch's `values` map induces over the
`ssmVars` apply loop (main.go:270-275). -/
def batchCallsOf (ssmVars : List SsmVar) (values : List (String × String)) :
    List (String × String) :=
  ssmVars.filterMap
    (fun sv => (mapLookup values sv.parameter).map (fun val => (sv.envvar, val)))

/-- All `Setenv` invocations of the SSM phase over a batch list. -/
def phaseCallsOf (e : Expander) (decrypt nofail : Bool) (ssmVars : List SsmVar)
    (batches : List (List String)) : List (String × String) :=
  (batches.map
    (fun b => batchCallsOf ssmVars (getParameters e.ssm b decrypt nofail).values)).flatten

/-- All diagnostics of the SSM phase over a batch list. -/
def phaseDiagsOf (e : Expander) (decrypt nofail : Bool)
    (batches : List (List String)) : List GoError :=
  (batches.map (fun b => (getParameters e.ssm b decrypt nofail).diags)).flatten

/-- The `Setenv` invocations of the KMS phase (main.go:280-292) in
best-effort mode: one per variable whose payload decrypts. -/
def kmsCallsOf (e : Expander) (kmsVars : List KmsVar) : List (String × String) :=
  kmsVars.filterMap
    (fun kv =>
      match decryptKmsValue e kv.encoded true with
      | .ok s => some (kv.envvar, s)
      | .error _ => none)

/-- The diagnostics of the KMS phase in best-effort mode: one per failing
variable. -/
def kmsDiagsOf (e : Expander) (kmsVars : List KmsVar) : List GoError :=
  kmsVars.filterMap
    (fun kv =>
      match decryptKmsValue e kv.encoded true with
      | .ok _ => none
      | .error er => some er)

/-! ### Lemmas about the environment map -/

theorem mapLookup_nil (k : String) : mapLookup [] k = none := rfl

theorem mem_setenv_of_ne {env : List (String × String)} {n v : String}
    (k v' : String) (hm : (n, v) ∈ env) (hne : n ≠ k) :
    (n, v) ∈ setenv env k v' := by
  unfold setenv
  split
  · refine List.mem_map.mpr ⟨(n, v), hm, ?_⟩
    have : ((n, v).1 == k) = false := by
      simp only [beq_eq_false_iff_ne, ne_eq]
      exact hne
    simp [this]
  · exact List.mem_append_left _ hm

theorem findq_cons_pos {α : Type} (f : α → Bool) (a : α) (l : List α)
    (h : f a = true) : List.find? f (a :: l) = some a := by
  simp [List.find?, h]

theorem findq_cons_neg {α : Type} (f : α → Bool) (a : α) (l : List α)
    (h : f a = false) : List.find? f (a :: l) = List.find? f l := by
  simp [List.find?, h]

theorem find_replace_self (ps : List (String × String)) (k v : String)
    (h : ps.any (fun p => p.1 == k) = true) :
    List.find? (fun p => p.1 == k)
      (ps.map (fun p => if p.1 == k then (k, v) else p)) = some (k, v) := by
  induction ps with
  | nil => simp at h
  | cons p ps ih =>
    by_cases hp : (p.1 == k) = true
    · rw [List.map_cons, if_pos hp,
          findq_cons_pos (fun p => p.1 == k) (k, v) _ (by simp)]
    · simp only [List.any_cons, Bool.false_or] at h
      have h' : (ps.any fun p => p.1 == k) = true := by
        rcases Bool.or_eq_true_iff.mp h with h1 | h1
        · exact absurd h1 hp
        · exact h1
      have hk : (p.1 == k) = false := by simpa using hp
      rw [List.map_cons, if_neg hp,
          findq_cons_neg (fun p => p.1 == k) p _ hk]
      exact ih h'

theorem find_replace_ne (ps : List (String × String)) (k v n : String)
    (hne : n ≠ k) :
    List.find? (fun p => p.1 == n)
      (ps.map (fun p => if p.1 == k then (k, v) else p)) =
      List.find? (fun p => p.1 == n) ps := by
  induction ps with
  | nil => rfl
  | cons p ps ih =>
    by_cases hp : (p.1 == k) = true
    · have hk : p.1 = k := by simpa using hp
      have h1 : ¬ (k : String) = n := fun hkn => hne hkn.symm
      rw [List.map_cons, if_pos hp,
          findq_cons_neg (fun p => p.1 == n) (k, v) _ (by simpa using h1),
          findq_cons_neg (fun p => p.1 == n) p _ (by simp [hk]; exact h1)]
      exact ih
    · rw [List.map_cons, if_neg hp]
      by_cases hn : (p.1 == n) = true
      · rw [findq_cons_pos (fun p => p.1 == n) p _ hn,
            findq_cons_pos (fun p => p.1 == n) p _ hn]
      · have hn' : (p.1 == n) = false := by simpa using hn
        rw [findq_cons_neg (fun p => p.1 == n) p _ hn',
            findq_cons_neg (fun p => p.1 == n) p _ hn']
        exact ih

theorem find_append_self (ps : List (String × String)) (k v : String)
    (h : ps.any (fun p => p.1 == k) = false) :
    List.find? (fun p => p.1 == k) (ps ++ [(k, v)]) = some (k, v) := by
  induction ps with
  | nil =>
    rw [List.nil_append, findq_cons_pos (fun p => p.1 == k) (k, v) _ (by simp)]
  | cons p ps ih =>
    simp only [List.any_cons, Bool.or_eq_false_iff] at h
    rw [List.cons_append, findq_cons_neg (fun p => p.1 == k) p _ h.1]
    exact ih h.2

theorem find_append_ne (ps : List (String × String)) (k v n : String)
    (hne : n ≠ k) :
    List.find? (fun p => p.1 == n) (ps ++ [(k, v)]) =
      List.find? (fun p => p.1 == n) ps := by
  induction ps with
  | nil =>
    rw [List.nil_append,
        findq_cons_neg (fun p => p.1 == n) (k, v) _
          (by simp; exact fun hkn => hne hkn.symm)]
  | cons p ps ih =>
    by_cases hn : (p.1 == n) = true
    · rw [List.cons_append, findq_cons_pos (fun p => p.1 == n) p _ hn,
          findq_cons_pos (fun p => p.1 == n) p _ hn]
    · have hn' : (p.1 == n) = false := by simpa using hn
      rw [List.cons_append, findq_cons_neg (fun p => p.1 == n) p _ hn',
          findq_cons_neg (fun p => p.1 == n) p _ hn']
      exact ih

theorem lookup_setenv_self (env : List (String × String)) (k v : String) :
    mapLookup (setenv env k v) k = some v := by
  unfold setenv mapLookup
  by_cases h : env.any (fun p => p.1 == k) = true
  · rw [if_pos h, find_replace_self env k v h]
    rfl
  · have h' : env.any (fun p => p.1 == k) = false := Bool.eq_false_iff.mpr h
    rw [if_neg h, find_append_self env k v h']
    rfl

theorem lookup_setenv_ne (env : List (String × String)) (k v n : String)
    (hne : n ≠ k) : mapLookup (setenv env k v) n = mapLookup env n := by
  unfold setenv mapLookup
  by_cases h : env.any (fun p => p.1 == k) = true
  · rw [if_pos h, find_replace_ne env k v n hne]
  · rw [if_neg h, find_append_ne env k v n hne]

theorem applyCalls_nil (env : List (String × String)) : applyCalls env [] = env := rfl

theorem applyCalls_cons (env : List (String × String)) (c : String × String)
    (cs : List (String × String)) :
    applyCalls env (c :: cs) = applyCalls (setenv env c.1 c.2) cs := rfl

theorem applyCalls_append (env : List (String × String))
    (l1 l2 : List (String × String)) :
    applyCalls env (l1 ++ l2) = applyCalls (applyCalls env l1) l2 :=
  List.foldl_append _ _ _ _

theorem mem_applyCalls_of_ne {env : List (String × String)} {n v : String}
    (calls : List (String × String)) (hm : (n, v) ∈ env)
    (hk : ∀ c ∈ calls, c.1 ≠ n) : (n, v) ∈ applyCalls env calls := by
  induction calls generalizing env with
  | nil => exact hm
  | cons c cs ih =>
    rw [applyCalls_cons]
    refine ih (mem_setenv_of_ne c.1 c.2 hm ?_) (fun x hx => hk x (List.mem_cons_of_mem c hx))
    exact fun hnc => (hk c (List.mem_cons_self c cs)) hnc.symm

theorem lookup_applyCalls (env : List (String × String))
    (calls : List (String × String)) (n : String) :
    mapLookup (applyCalls env calls) n =
      match lastSet n calls with
      | some v => some v
      | none => mapLookup env n := by
  induction calls generalizing env with
  | nil => rfl
  | cons c cs ih =>
    rw [applyCalls_cons, ih]
    simp only [lastSet]
    cases h : lastSet n cs with
    | some v => rfl
    | none =>
      by_cases hc : (c.1 == n) = true
      · have hcn : c.1 = n := by simpa using hc
        subst hcn
        rw [lookup_setenv_self]
        simp
      · simp only [Bool.not_eq_true] at hc
        have hne : n ≠ c.1 := by
          intro he
          rw [he] at hc
          simp at hc
        rw [lookup_setenv_ne _ _ _ _ hne]
        simp [hc]

theorem lastSet_eq_none {calls : List (String × String)} {n : String}
    (hk : ∀ c ∈ calls, c.1 ≠ n) : lastSet n calls = none := by
  induction calls with
  | nil => rfl
  | cons c cs ih =>
    simp only [lastSet, ih (fun x hx => hk x (List.mem_cons_of_mem c hx))]
    have : (c.1 == n) = false := by
      simp only [beq_eq_false_iff_ne, ne_eq]
      exact hk c (List.mem_cons_self c cs)
    simp [this]

theorem lastSet_mem {cs : List (String × String)} {n v : String}
    (h : lastSet n cs = some v) : (n, v) ∈ cs := by
  induction cs with
  | nil => simp [lastSet] at h
  | cons d ds ih =>
    simp only [lastSet] at h
    cases hd : lastSet n ds with
    | some w =>
      rw [hd] at h
      cases h
      exact List.mem_cons_of_mem d (ih hd)
    | none =>
      rw [hd] at h
      by_cases hdn : (d.1 == n) = true
      · rw [if_pos hdn] at h
        cases h
        have h1 : d.1 = n := by simpa using hdn
        have h2 : (n, d.2) = d := by
          rw [← h1]
        rw [h2]
        exact List.mem_cons_self d ds
      · rw [if_neg hdn] at h
        cases h

theorem lastSet_eq_some {calls : List (String × String)} {n val : String}
    (hmem : (n, val) ∈ calls) (huniq : ∀ v, (n, v) ∈ calls → v = val) :
    lastSet n calls = some val := by
  induction calls with
  | nil => simp at hmem
  | cons c cs ih =>
    simp only [lastSet]
    cases List.mem_cons.mp hmem with
    | inl hc =>
      cases h : lastSet n cs with
      | some v =>
        rw [huniq v (List.mem_cons_of_mem c (lastSet_mem h))]
      | none =>
        rw [← hc]
        simp
    | inr hcs =>
      rw [ih hcs (fun v hv => huniq v (List.mem_cons_of_mem c hv))]

/-! ### Lemmas about batching -/

theorem chunkFuel_join (bs : Nat) :
    ∀ (fuel : Nat) (l : List String), l.length ≤ fuel →
      (chunkFuel bs fuel l).flatten = l := by
  intro fuel
  induction fuel with
  | zero =>
    intro l hl
    match l with
    | [] => rfl
    | x :: xs => simp at hl
  | succ f ih =>
    intro l hl
    match l with
    | [] => rfl
    | x :: xs =>
      simp only [chunkFuel, List.flatten]
      rw [ih (xs.drop (bs - 1)) (by simp only [List.length_drop]; simp only [List.length_cons] at hl; omega)]
      simp [List.take_append_drop]

theorem chunkList_join (bs : Nat) (l : List String) :
    (chunkList bs l).flatten = l :=
  chunkFuel_join bs l.length l (Nat.le_refl _)

theorem chunkFuel_length (bs : Nat) (hbs : 1 ≤ bs) :
    ∀ (fuel : Nat) (l : List String), l.length ≤ fuel →
      (chunkFuel bs fuel l).length = (l.length + bs - 1) / bs := by
  intro fuel
  induction fuel with
  | zero =>
    intro l hl
    match l with
    | [] =>
      simp only [chunkFuel, List.length_nil]
      rw [Nat.div_eq_of_lt (by omega)]
    | x :: xs => simp at hl
  | succ f ih =>
    intro l hl
    match l with
    | [] =>
      simp only [chunkFuel, List.length_nil]
      rw [Nat.div_eq_of_lt (by omega)]
    | x :: xs =>
      simp only [chunkFuel, List.length_cons]
      rw [ih (xs.drop (bs - 1)) (by simp only [List.length_drop]; simp only [List.length_cons] at hl; omega)]
      simp only [List.length_drop]
      have hxbs : xs.length + 1 + bs - 1 = xs.length + bs := by omega
      rw [hxbs]
      by_cases hc : xs.length ≤ bs - 1
      · have h1 : xs.length - (bs - 1) = 0 := by omega
        rw [h1]
        have h2 : (0 + bs - 1) / bs = 0 := Nat.div_eq_of_lt (by omega)
        rw [h2]
        have h3 : xs.length + bs = xs.length + bs := rfl
        have h4 : (xs.length + bs) / bs = xs.length / bs + 1 := by
          rw [Nat.add_div_right _ (by omega)]
        rw [h4, Nat.div_eq_of_lt (by omega)]
      · have h1 : xs.length - (bs - 1) + bs - 1 = xs.length := by omega
        rw [h1, Nat.add_div_right _ (by omega)]

theorem chunkList_length (bs : Nat) (hbs : 1 ≤ bs) (l : List String) :
    (chunkList bs l).length = (l.length + bs - 1) / bs :=
  chunkFuel_length bs hbs l.length l (Nat.le_refl _)

theorem chunkFuel_sizes (bs : Nat) (hbs : 1 ≤ bs) :
    ∀ (fuel : Nat) (l : List String) (b : List String), b ∈ chunkFuel bs fuel l →
      b.length ≤ bs ∧ b ≠ [] := by
  intro fuel
  induction fuel with
  | zero =>
    intro l b hb
    match l with
    | [] => simp [chunkFuel] at hb
    | x :: xs => simp [chunkFuel] at hb
  | succ f ih =>
    intro l b hb
    match l with
    | [] => simp [chunkFuel] at hb
    | x :: xs =>
      simp only [chunkFuel, List.mem_cons] at hb
      cases hb with
      | inl h =>
        subst h
        constructor
        · simp only [List.length_cons]
          have := List.length_take_le (bs - 1) xs
          omega
        · simp
      | inr h => exact ih (xs.drop (bs - 1)) b h

theorem chunkList_sizes (bs : Nat) (hbs : 1 ≤ bs) (l : List String)
    (b : List String) (hb : b ∈ chunkList bs l) : b.length ≤ bs ∧ b ≠ [] :=
  chunkFuel_sizes bs hbs l.length l b hb

end SsmEnv

namespace SsmEnv

/-! ### Lemmas about the SSM resolution phase -/

theorem applySsmValues_eq (ssmVars : List SsmVar) (values : List (String × String)) :
    ∀ st : ExpandState,
      applySsmValues ssmVars values st =
        { st with env := applyCalls st.env (batchCallsOf ssmVars values)
                  setenvCalls := st.setenvCalls ++ batchCallsOf ssmVars values } := by
  induction ssmVars with
  | nil => intro st; simp [applySsmValues, batchCallsOf, applyCalls]
  | cons sv svs ih =>
    intro st
    simp only [applySsmValues, List.foldl_cons] at ih ⊢
    cases h : mapLookup values sv.parameter with
    | some val =>
      rw [ih]
      simp [batchCallsOf, List.filterMap_cons, h, applyCalls_cons, List.append_assoc]
    | none =>
      rw [ih]
      simp [batchCallsOf, List.filterMap_cons, h]

theorem batchCallsOf_keys (ssmVars : List SsmVar) (values : List (String × String))
    (c : String × String) (hc : c ∈ batchCallsOf ssmVars values) :
    c.1 ∈ ssmVars.map SsmVar.envvar := by
  simp only [batchCallsOf, List.mem_filterMap] at hc
  obtain ⟨sv, hsv, hmap⟩ := hc
  cases h : mapLookup values sv.parameter with
  | none => rw [h] at hmap; simp at hmap
  | some val =>
    rw [h] at hmap
    have h2 : (sv.envvar, val) = c := Option.some.inj hmap
    rw [← h2]
    exact List.mem_map.mpr ⟨sv, hsv, rfl⟩

theorem batchCallsOf_mem (ssmVars : List SsmVar) (values : List (String × String))
    (c : String × String) (hc : c ∈ batchCallsOf ssmVars values) :
    ∃ sv ∈ ssmVars, c = (sv.envvar, (mapLookup values sv.parameter).getD "") ∧
      mapLookup values sv.parameter = some c.2 := by
  simp only [batchCallsOf, List.mem_filterMap] at hc
  obtain ⟨sv, hsv, hmap⟩ := hc
  cases h : mapLookup values sv.parameter with
  | none => rw [h] at hmap; simp at hmap
  | some val =>
    rw [h] at hmap
    have h2 : (sv.envvar, val) = c := Option.some.inj hmap
    refine ⟨sv, hsv, ?_, ?_⟩
    · rw [← h2, h]
      rfl
    · rw [← h2, h]

theorem batchCallsOf_intro (ssmVars : List SsmVar) (values : List (String × String))
    (sv : SsmVar) (val : String) (hsv : sv ∈ ssmVars)
    (hval : mapLookup values sv.parameter = some val) :
    (sv.envvar, val) ∈ batchCallsOf ssmVars values := by
  simp only [batchCallsOf, List.mem_filterMap]
  exact ⟨sv, hsv, by rw [hval]; rfl⟩

/-- Characterization of the batch loop when every issued call returns
without a fatal error: all batches are issued, the state accumulates the
concatenated calls and diagnostics, and no error is returned. -/
theorem ssmPhase_ok (e : Expander) (decrypt nofail : Bool) (ssmVars : List SsmVar) :
    ∀ (batches : List (List String)) (st : ExpandState),
      (∀ b ∈ batches, (getParameters e.ssm b decrypt nofail).err = none) →
      ssmPhase e decrypt nofail ssmVars batches st =
        ({ env := applyCalls st.env (phaseCallsOf e decrypt nofail ssmVars batches)
           ssmCalls := st.ssmCalls ++ batches
           setenvCalls := st.setenvCalls ++ phaseCallsOf e decrypt nofail ssmVars batches
           diags := st.diags ++ phaseDiagsOf e decrypt nofail batches }, none) := by
  intro batches
  induction batches with
  | nil =>
    intro st _
    simp [ssmPhase, phaseCallsOf, phaseDiagsOf, applyCalls]
  | cons b bs ih =>
    intro st hok
    have hb := hok b (List.mem_cons_self b bs)
    simp only [ssmPhase, hb]
    rw [applySsmValues_eq, ih _ (fun x hx => hok x (List.mem_cons_of_mem b hx))]
    simp only [phaseCallsOf, phaseDiagsOf, List.map_cons, List.flatten_cons]
    rw [applyCalls_append]
    simp [List.append_assoc]

/-- Characterization of the batch loop when the first `i` batches succeed
and batch `b` then returns a fatal error: the loop stops right after `b`,
returning that error with exactly the prefix of calls issued. -/
theorem ssmPhase_abort (e : Expander) (decrypt nofail : Bool) (ssmVars : List SsmVar)
    (er : GoError) :
    ∀ (pre : List (List String)) (b : List String) (post : List (List String))
      (st : ExpandState),
      (∀ x ∈ pre, (getParameters e.ssm x decrypt nofail).err = none) →
      (getParameters e.ssm b decrypt nofail).err = some er →
      ssmPhase e decrypt nofail ssmVars (pre ++ b :: post) st =
        ({ env := applyCalls st.env (phaseCallsOf e decrypt nofail ssmVars pre)
           ssmCalls := st.ssmCalls ++ pre ++ [b]
           setenvCalls := st.setenvCalls ++ phaseCallsOf e decrypt nofail ssmVars pre
           diags := st.diags ++ phaseDiagsOf e decrypt nofail pre ++
             (getParameters e.ssm b decrypt nofail).diags }, some er) := by
  intro pre
  induction pre with
  | nil =>
    intro b post st _ hb
    simp only [List.nil_append, ssmPhase, hb]
    simp [phaseCallsOf, phaseDiagsOf, applyCalls]
  | cons x xs ih =>
    intro b post st hok hb
    have hx := hok x (List.mem_cons_self x xs)
    simp only [List.cons_append, ssmPhase, hx]
    rw [applySsmValues_eq]
    simp only [List.append_eq]
    rw [ih b post _ (fun y hy => hok y (List.mem_cons_of_mem x hy)) hb]
    simp only [phaseCallsOf, phaseDiagsOf, List.map_cons, List.flatten_cons]
    rw [applyCalls_append]
    simp [List.append_assoc]

/-- General shape of the batch loop, holding on the abort path as well:
whatever happens, the final state extends the initial one by some list of
`Setenv` calls whose names all come from `ssmVars`, and `diags` and
`ssmCalls` only grow. -/
theorem ssmPhase_shape (e : Expander) (decrypt nofail : Bool) (ssmVars : List SsmVar) :
    ∀ (batches : List (List String)) (st : ExpandState),
      ∃ calls : List (String × String),
        (ssmPhase e decrypt nofail ssmVars batches st).1.env =
          applyCalls st.env calls ∧
        (ssmPhase e decrypt nofail ssmVars batches st).1.setenvCalls =
          st.setenvCalls ++ calls ∧
        (∀ c ∈ calls, c.1 ∈ ssmVars.map SsmVar.envvar) := by
  intro batches
  induction batches with
  | nil =>
    intro st
    exact ⟨[], by simp [ssmPhase, applyCalls]⟩
  | cons b bs ih =>
    intro st
    simp only [ssmPhase]
    cases h : (getParameters e.ssm b decrypt nofail).err with
    | some er =>
      exact ⟨[], by simp [applyCalls]⟩
    | none =>
      obtain ⟨calls, h1, h2, h3⟩ :=
        ih (applySsmValues ssmVars (getParameters e.ssm b decrypt nofail).values
          { st with ssmCalls := st.ssmCalls ++ [b]
                    diags := st.diags ++ (getParameters e.ssm b decrypt nofail).diags })
      refine ⟨batchCallsOf ssmVars (getParameters e.ssm b decrypt nofail).values ++ calls,
        ?_, ?_, ?_⟩
      · rw [h1, applySsmValues_eq, applyCalls_append]
      · rw [h2, applySsmValues_eq]
        simp [List.append_assoc]
      · intro c hc
        cases List.mem_append.mp hc with
        | inl h' => exact batchCallsOf_keys _ _ c h'
        | inr h' => exact h3 c h'

/-! ### Lemmas about the KMS phase -/

/-- General shape of the KMS loop: the final state extends the initial one
by `Setenv` calls whose names all come from `kmsVars`; the issued store
calls are untouched. -/
theorem kmsPhase_shape (e : Expander) (nofail : Bool) :
    ∀ (kmsVars : List KmsVar) (st : ExpandState),
      ∃ calls : List (String × String),
        (kmsPhase e nofail kmsVars st).1.env = applyCalls st.env calls ∧
        (kmsPhase e nofail kmsVars st).1.setenvCalls = st.setenvCalls ++ calls ∧
        (kmsPhase e nofail kmsVars st).1.ssmCalls = st.ssmCalls ∧
        (∀ c ∈ calls, c.1 ∈ kmsVars.map KmsVar.envvar) := by
  intro kmsVars
  induction kmsVars with
  | nil =>
    intro st
    exact ⟨[], by simp [kmsPhase, applyCalls]⟩
  | cons kv kvs ih =>
    intro st
    simp only [kmsPhase]
    cases h : decryptKmsValue e kv.encoded nofail with
    | error er =>
      by_cases hnf : nofail = true
      · subst hnf
        simp only [if_true]
        obtain ⟨calls, h1, h2, h3, h4⟩ := ih { st with diags := st.diags ++ [er] }
        exact ⟨calls, h1, h2, h3,
          fun c hc => List.mem_cons_of_mem _ (h4 c hc)⟩
      · have hnf' : nofail = false := Bool.eq_false_iff.mpr hnf
        subst hnf'
        simp only [Bool.false_eq_true, if_false]
        exact ⟨[], by simp [applyCalls]⟩
    | ok val =>
      obtain ⟨calls, h1, h2, h3, h4⟩ :=
        ih { st with env := setenv st.env kv.envvar val
                     setenvCalls := st.setenvCalls ++ [(kv.envvar, val)] }
      refine ⟨(kv.envvar, val) :: calls, ?_, ?_, ?_, ?_⟩
      · rw [h1, applyCalls_cons]
      · rw [h2]; simp
      · rw [h3]
      · intro c hc
        cases List.mem_cons.mp hc with
        | inl h' => rw [h']; exact List.mem_cons_self _ _
        | inr h' => exact List.mem_cons_of_mem _ (h4 c h')

/-- Characterization of the KMS loop in best-effort mode: it never fails,
applies exactly one `Setenv` per successfully decrypted variable and emits
one diagnostic per failing variable. -/
theorem kmsPhase_nofail (e : Expander) :
    ∀ (kmsVars : List KmsVar) (st : ExpandState),
      kmsPhase e true kmsVars st =
        ({ env := applyCalls st.env (kmsCallsOf e kmsVars)
           ssmCalls := st.ssmCalls
           setenvCalls := st.setenvCalls ++ kmsCallsOf e kmsVars
           diags := st.diags ++ kmsDiagsOf e kmsVars }, none) := by
  intro kmsVars
  induction kmsVars with
  | nil =>
    intro st
    simp [kmsPhase, kmsCallsOf, kmsDiagsOf, applyCalls]
  | cons kv kvs ih =>
    intro st
    simp only [kmsPhase]
    cases h : decryptKmsValue e kv.encoded true with
    | error er =>
      simp only [if_true]
      rw [ih]
      simp only [kmsCallsOf, kmsDiagsOf, List.filterMap_cons, h]
      simp [List.append_assoc]
    | ok val =>
      dsimp only
      rw [ih]
      simp [kmsCallsOf, kmsDiagsOf, List.filterMap_cons, h, applyCalls_cons,
        List.append_assoc]

/-- Characterization of the KMS loop in strict mode up to the first failing
variable: all earlier variables are applied, then the loop aborts with the
failing variable's error. -/
theorem kmsPhase_strict_abort (e : Expander) (kv : KmsVar) (er : GoError)
    (hkv : decryptKmsValue e kv.encoded false = .error er) :
    ∀ (pre post : List KmsVar) (st : ExpandState),
      (∀ x ∈ pre, ∃ s, decryptKmsValue e x.encoded false = .ok s) →
      (kmsPhase e false (pre ++ kv :: post) st).2 = some er := by
  intro pre
  induction pre with
  | nil =>
    intro post st _
    simp [kmsPhase, hkv]
  | cons x xs ih =>
    intro post st hok
    obtain ⟨s, hs⟩ := hok x (List.mem_cons_self x xs)
    simp only [List.cons_append, kmsPhase, hs]
    exact ih post _ (fun y hy => hok y (List.mem_cons_of_mem x hy))

end SsmEnv

namespace SsmEnv

/-! ### Lemmas about classification -/

/-- One-step case analysis of the classification loop: processing the entry
`s` either aborts with an error independent of the accumulators, or appends
a KMS variable, or leaves the accumulators unchanged (a Plain entry), or
appends an SSM variable and inserts its parameter name. -/
theorem classify_step (e : Expander) (nofail : Bool) (s : String) :
    (∃ er : GoError, ∀ rest sv kv u,
        classifyLoop e nofail (s :: rest) sv kv u = .error er) ∨
    (∃ k v : String, splitVar s = some (k, v) ∧ goHasPre v kmsTag = true ∧
      ∀ rest sv kv u,
        classifyLoop e nofail (s :: rest) sv kv u =
          classifyLoop e nofail rest sv
            (kv ++ [⟨k, String.mk (goTrim (v.data.drop kmsTag.data.length) kmsCutset)⟩]) u) ∨
    (∃ k v : String, splitVar s = some (k, v) ∧ goHasPre v kmsTag = false ∧
      parameter e k v = .ok none ∧
      ∀ rest sv kv u,
        classifyLoop e nofail (s :: rest) sv kv u =
          classifyLoop e nofail rest sv kv u) ∨
    (∃ k v p : String, splitVar s = some (k, v) ∧ goHasPre v kmsTag = false ∧
      parameter e k v = .ok (some p) ∧
      ¬ (¬ goHasPre p "/" = true ∧ ¬ nofail = true) ∧
      ∀ rest sv kv u,
        classifyLoop e nofail (s :: rest) sv kv u =
          classifyLoop e nofail rest (sv ++ [⟨k, p⟩]) kv
            (if p ∈ u then u else u ++ [p])) := by
  cases hs : splitVar s with
  | none =>
    refine Or.inl ⟨.indexOutOfRange, fun rest sv kv u => ?_⟩
    simp only [classifyLoop, hs]
  | some kvp =>
    obtain ⟨k, v⟩ := kvp
    by_cases hkms : goHasPre v kmsTag = true
    · refine Or.inr (Or.inl ⟨k, v, rfl, hkms, fun rest sv kv u => ?_⟩)
      simp only [classifyLoop, hs, hkms, if_true]
    · have hkms' : goHasPre v kmsTag = false := Bool.eq_false_iff.mpr hkms
      cases hp : parameter e k v with
      | error msg =>
        refine Or.inl ⟨.templateError msg, fun rest sv kv u => ?_⟩
        simp only [classifyLoop, hs, hkms', Bool.false_eq_true, if_false, hp]
      | ok po =>
        cases po with
        | none =>
          refine Or.inr (Or.inr (Or.inl ⟨k, v, rfl, hkms', hp, fun rest sv kv u => ?_⟩))
          simp only [classifyLoop, hs, hkms', Bool.false_eq_true, if_false, hp]
        | some p =>
          by_cases hmal : (¬ goHasPre p "/" = true ∧ ¬ nofail = true)
          · refine Or.inl ⟨.malformedParameterError s, fun rest sv kv u => ?_⟩
            simp only [classifyLoop, hs, hkms', Bool.false_eq_true, if_false, hp]
            rw [if_pos hmal]
          · refine Or.inr (Or.inr (Or.inr ⟨k, v, p, rfl, hkms', hp, hmal, fun rest sv kv u => ?_⟩))
            simp only [classifyLoop, hs, hkms', Bool.false_eq_true, if_false, hp]
            rw [if_neg hmal]

/-- Classifying a concatenation: the first part runs to completion (when it
succeeds) and the second part continues from its accumulators. -/
theorem classifyLoop_append (e : Expander) (nofail : Bool) :
    ∀ (l1 l2 : List String) (sv : List SsmVar) (kv : List KmsVar) (u : List String)
      (a : List SsmVar) (b : List KmsVar) (c : List String),
      classifyLoop e nofail l1 sv kv u = .ok (a, b, c) →
      classifyLoop e nofail (l1 ++ l2) sv kv u = classifyLoop e nofail l2 a b c := by
  intro l1
  induction l1 with
  | nil =>
    intro l2 sv kv u a b c h
    simp only [classifyLoop] at h
    cases h
    rfl
  | cons s l1 ih =>
    intro l2 sv kv u a b c h
    rcases classify_step e nofail s with ⟨er, hstep⟩ |
      ⟨k, v, _, _, hstep⟩ | ⟨k, v, _, _, _, hstep⟩ | ⟨k, v, p, _, _, _, _, hstep⟩
    · rw [hstep] at h
      cases h
    · rw [hstep] at h
      rw [List.cons_append, hstep]
      exact ih l2 _ _ _ a b c h
    · rw [hstep] at h
      rw [List.cons_append, hstep]
      exact ih l2 _ _ _ a b c h
    · rw [hstep] at h
      rw [List.cons_append, hstep]
      exact ih l2 _ _ _ a b c h

/-- Classifying a concatenation whose first part aborts. -/
theorem classifyLoop_append_err (e : Expander) (nofail : Bool) :
    ∀ (l1 l2 : List String) (sv : List SsmVar) (kv : List KmsVar) (u : List String)
      (er : GoError),
      classifyLoop e nofail l1 sv kv u = .error er →
      classifyLoop e nofail (l1 ++ l2) sv kv u = .error er := by
  intro l1
  induction l1 with
  | nil =>
    intro l2 sv kv u er h
    simp only [classifyLoop] at h
    exact Except.noConfusion h
  | cons s l1 ih =>
    intro l2 sv kv u er h
    rcases classify_step e nofail s with ⟨er', hstep⟩ |
      ⟨k, v, _, _, hstep⟩ | ⟨k, v, _, _, _, hstep⟩ | ⟨k, v, p, _, _, _, _, hstep⟩
    · rw [hstep] at h
      rw [List.cons_append, hstep]
      exact h
    · rw [hstep] at h
      rw [List.cons_append, hstep]
      exact ih l2 _ _ _ er h
    · rw [hstep] at h
      rw [List.cons_append, hstep]
      exact ih l2 _ _ _ er h
    · rw [hstep] at h
      rw [List.cons_append, hstep]
      exact ih l2 _ _ _ er h

/-- A successful strict-mode classification succeeds identically in
best-effort mode (the only mode-dependent step is the leading-`/` check,
which can only abort in strict mode). -/
theorem classifyLoop_true_of_false (e : Expander) :
    ∀ (l : List String) (sv : List SsmVar) (kv : List KmsVar) (u : List String)
      (r : List SsmVar × List KmsVar × List String),
      classifyLoop e false l sv kv u = .ok r →
      classifyLoop e true l sv kv u = .ok r := by
  intro l
  induction l with
  | nil =>
    intro sv kv u r h
    exact h
  | cons s l ih =>
    intro sv kv u r h
    cases hs : splitVar s with
    | none =>
      simp only [classifyLoop, hs] at h
      exact Except.noConfusion h
    | some kvp =>
      obtain ⟨k, v⟩ := kvp
      by_cases hkms : goHasPre v kmsTag = true
      · simp only [classifyLoop, hs, hkms, if_true] at h ⊢
        exact ih _ _ _ r h
      · have hkms' : goHasPre v kmsTag = false := Bool.eq_false_iff.mpr hkms
        cases hp : parameter e k v with
        | error msg =>
          simp only [classifyLoop, hs, hkms', Bool.false_eq_true, if_false, hp] at h
          exact Except.noConfusion h
        | ok po =>
          cases po with
          | none =>
            simp only [classifyLoop, hs, hkms', Bool.false_eq_true, if_false, hp] at h ⊢
            exact ih _ _ _ r h
          | some p =>
            simp only [classifyLoop, hs, hkms', Bool.false_eq_true, if_false, hp] at h ⊢
            by_cases hpre : goHasPre p "/" = true
            · rw [if_neg (by simp [hpre])] at h
              rw [if_neg (by simp)]
              exact ih _ _ _ r h
            · rw [if_pos ⟨by simpa using hpre, by simp⟩] at h
              cases h

/-- The classification accumulators only grow. -/
theorem classifyLoop_acc_sub (e : Expander) (nofail : Bool) :
    ∀ (l : List String) (sv : List SsmVar) (kv : List KmsVar) (u : List String)
      (svs : List SsmVar) (kvs : List KmsVar) (uniq : List String),
      classifyLoop e nofail l sv kv u = .ok (svs, kvs, uniq) →
      sv ⊆ svs ∧ kv ⊆ kvs ∧ u ⊆ uniq := by
  intro l
  induction l with
  | nil =>
    intro sv kv u svs kvs uniq h
    simp only [classifyLoop] at h
    cases h
    exact ⟨List.Subset.refl _, List.Subset.refl _, List.Subset.refl _⟩
  | cons s l ih =>
    intro sv kv u svs kvs uniq h
    rcases classify_step e nofail s with ⟨er, hstep⟩ |
      ⟨k, v, _, _, hstep⟩ | ⟨k, v, _, _, _, hstep⟩ | ⟨k, v, p, _, _, _, _, hstep⟩
    · rw [hstep] at h
      cases h
    · rw [hstep] at h
      obtain ⟨h1, h2, h3⟩ := ih _ _ _ svs kvs uniq h
      exact ⟨h1, fun x hx => h2 (List.mem_append_left _ hx), h3⟩
    · rw [hstep] at h
      exact ih _ _ _ svs kvs uniq h
    · rw [hstep] at h
      obtain ⟨h1, h2, h3⟩ := ih _ _ _ svs kvs uniq h
      refine ⟨fun x hx => h1 (List.mem_append_left _ hx), h2, fun x hx => ?_⟩
      apply h3
      by_cases hu : p ∈ u
      · rw [if_pos hu]
        exact hx
      · rw [if_neg hu]
        exact List.mem_append_left _ hx

end SsmEnv

namespace SsmEnv

/-- Provenance of the collected SSM variables: each one either was already
in the accumulator or arises from an entry of the processed list whose
value matched the SSM convention. -/
theorem classifyLoop_prov_ssm (e : Expander) (nofail : Bool) :
    ∀ (l : List String) (sv : List SsmVar) (kv : List KmsVar) (u : List String)
      (svs : List SsmVar) (kvs : List KmsVar) (uniq : List String),
      classifyLoop e nofail l sv kv u = .ok (svs, kvs, uniq) →
      ∀ x ∈ svs, x ∈ sv ∨ ∃ s ∈ l, ∃ kk vv pp : String,
        splitVar s = some (kk, vv) ∧ goHasPre vv kmsTag = false ∧
        parameter e kk vv = .ok (some pp) ∧ x = ⟨kk, pp⟩ := by
  intro l
  induction l with
  | nil =>
    intro sv kv u svs kvs uniq h x hx
    simp only [classifyLoop] at h
    cases h
    exact Or.inl hx
  | cons s l ih =>
    intro sv kv u svs kvs uniq h x hx
    rcases classify_step e nofail s with ⟨er, hstep⟩ |
      ⟨k, v, hsv, hkms, hstep⟩ | ⟨k, v, hsv, hkms, hp, hstep⟩ |
      ⟨k, v, p, hsv, hkms, hp, hmal, hstep⟩
    · rw [hstep] at h
      cases h
    · rw [hstep] at h
      cases ih _ _ _ svs kvs uniq h x hx with
      | inl h' => exact Or.inl h'
      | inr h' =>
        obtain ⟨s', hs', rest⟩ := h'
        exact Or.inr ⟨s', List.mem_cons_of_mem s hs', rest⟩
    · rw [hstep] at h
      cases ih _ _ _ svs kvs uniq h x hx with
      | inl h' => exact Or.inl h'
      | inr h' =>
        obtain ⟨s', hs', rest⟩ := h'
        exact Or.inr ⟨s', List.mem_cons_of_mem s hs', rest⟩
    · rw [hstep] at h
      cases ih _ _ _ svs kvs uniq h x hx with
      | inl h' =>
        cases List.mem_append.mp h' with
        | inl h'' => exact Or.inl h''
        | inr h'' =>
          have hx' : x = (⟨k, p⟩ : SsmVar) := by simpa using h''
          exact Or.inr ⟨s, List.mem_cons_self s l, k, v, p, hsv, hkms, hp, hx'⟩
      | inr h' =>
        obtain ⟨s', hs', rest⟩ := h'
        exact Or.inr ⟨s', List.mem_cons_of_mem s hs', rest⟩

/-- Provenance of the collected KMS variables. -/
theorem classifyLoop_prov_kms (e : Expander) (nofail : Bool) :
    ∀ (l : List String) (sv : List SsmVar) (kv : List KmsVar) (u : List String)
      (svs : List SsmVar) (kvs : List KmsVar) (uniq : List String),
      classifyLoop e nofail l sv kv u = .ok (svs, kvs, uniq) →
      ∀ x ∈ kvs, x ∈ kv ∨ ∃ s ∈ l, ∃ kk vv : String,
        splitVar s = some (kk, vv) ∧ goHasPre vv kmsTag = true ∧
        x = ⟨kk, String.mk (goTrim (vv.data.drop kmsTag.data.length) kmsCutset)⟩ := by
  intro l
  induction l with
  | nil =>
    intro sv kv u svs kvs uniq h x hx
    simp only [classifyLoop] at h
    cases h
    exact Or.inl hx
  | cons s l ih =>
    intro sv kv u svs kvs uniq h x hx
    rcases classify_step e nofail s with ⟨er, hstep⟩ |
      ⟨k, v, hsv, hkms, hstep⟩ | ⟨k, v, hsv, hkms, hp, hstep⟩ |
      ⟨k, v, p, hsv, hkms, hp, hmal, hstep⟩
    · rw [hstep] at h
      cases h
    · rw [hstep] at h
      cases ih _ _ _ svs kvs uniq h x hx with
      | inl h' =>
        cases List.mem_append.mp h' with
        | inl h'' => exact Or.inl h''
        | inr h'' =>
          have hx' : x = (⟨k, String.mk (goTrim (v.data.drop kmsTag.data.length) kmsCutset)⟩ : KmsVar) := by
            simpa using h''
          exact Or.inr ⟨s, List.mem_cons_self s l, k, v, hsv, hkms, hx'⟩
      | inr h' =>
        obtain ⟨s', hs', rest⟩ := h'
        exact Or.inr ⟨s', List.mem_cons_of_mem s hs', rest⟩
    · rw [hstep] at h
      cases ih _ _ _ svs kvs uniq h x hx with
      | inl h' => exact Or.inl h'
      | inr h' =>
        obtain ⟨s', hs', rest⟩ := h'
        exact Or.inr ⟨s', List.mem_cons_of_mem s hs', rest⟩
    · rw [hstep] at h
      cases ih _ _ _ svs kvs uniq h x hx with
      | inl h' => exact Or.inl h'
      | inr h' =>
        obtain ⟨s', hs', rest⟩ := h'
        exact Or.inr ⟨s', List.mem_cons_of_mem s hs', rest⟩

/-- An entry matching the SSM convention ends up in the collected SSM
variables, and its derived parameter name in the deduplicated name set. -/
theorem classifyLoop_mem_ssm (e : Expander) (nofail : Bool) :
    ∀ (l : List String) (sv : List SsmVar) (kv : List KmsVar) (u : List String)
      (svs : List SsmVar) (kvs : List KmsVar) (uniq : List String)
      (s : String) (k v p : String),
      classifyLoop e nofail l sv kv u = .ok (svs, kvs, uniq) →
      s ∈ l → splitVar s = some (k, v) → goHasPre v kmsTag = false →
      parameter e k v = .ok (some p) →
      (⟨k, p⟩ : SsmVar) ∈ svs ∧ p ∈ uniq := by
  intro l
  induction l with
  | nil =>
    intro sv kv u svs kvs uniq s k v p _ hmem
    simp at hmem
  | cons s0 l ih =>
    intro sv kv u svs kvs uniq s k v p h hmem hsp hkms hp
    rcases classify_step e nofail s0 with ⟨er, hstep⟩ |
      ⟨k', v', hsv', hkms', hstep⟩ | ⟨k', v', hsv', hkms', hp', hstep⟩ |
      ⟨k', v', p', hsv', hkms', hp', hmal', hstep⟩
    · rw [hstep] at h
      cases h
    · rw [hstep] at h
      cases List.mem_cons.mp hmem with
      | inl heq =>
        subst heq
        rw [hsp] at hsv'
        cases hsv'
        rw [hkms'] at hkms
        cases hkms
      | inr hmem' => exact ih _ _ _ svs kvs uniq s k v p h hmem' hsp hkms hp
    · rw [hstep] at h
      cases List.mem_cons.mp hmem with
      | inl heq =>
        subst heq
        rw [hsp] at hsv'
        cases hsv'
        rw [hp] at hp'
        cases hp'
      | inr hmem' => exact ih _ _ _ svs kvs uniq s k v p h hmem' hsp hkms hp
    · rw [hstep] at h
      cases List.mem_cons.mp hmem with
      | inl heq =>
        subst heq
        rw [hsp] at hsv'
        have hk1 : k = k' := congrArg Prod.fst (Option.some.inj hsv')
        have hk2 : v = v' := congrArg Prod.snd (Option.some.inj hsv')
        rw [← hk1, ← hk2, hp] at hp'
        have hpp : p = p' := Option.some.inj (Except.ok.inj hp')
        rw [← hk1, ← hpp] at h
        obtain ⟨h1, _, h3⟩ := classifyLoop_acc_sub e nofail l _ _ _ svs kvs uniq h
        refine ⟨h1 (List.mem_append_right _ (List.mem_singleton.mpr rfl)), h3 ?_⟩
        by_cases hu : p ∈ u
        · rw [if_pos hu]
          exact hu
        · rw [if_neg hu]
          exact List.mem_append_right _ (List.mem_singleton.mpr rfl)
      | inr hmem' => exact ih _ _ _ svs kvs uniq s k v p h hmem' hsp hkms hp

/-- An entry matching the KMS convention ends up in the collected KMS
variables. -/
theorem classifyLoop_mem_kms (e : Expander) (nofail : Bool) :
    ∀ (l : List String) (sv : List SsmVar) (kv : List KmsVar) (u : List String)
      (svs : List SsmVar) (kvs : List KmsVar) (uniq : List String)
      (s : String) (k v : String),
      classifyLoop e nofail l sv kv u = .ok (svs, kvs, uniq) →
      s ∈ l → splitVar s = some (k, v) → goHasPre v kmsTag = true →
      (⟨k, String.mk (goTrim (v.data.drop kmsTag.data.length) kmsCutset)⟩ : KmsVar) ∈ kvs := by
  intro l
  induction l with
  | nil =>
    intro sv kv u svs kvs uniq s k v _ hmem
    simp at hmem
  | cons s0 l ih =>
    intro sv kv u svs kvs uniq s k v h hmem hsp hkms
    rcases classify_step e nofail s0 with ⟨er, hstep⟩ |
      ⟨k', v', hsv', hkms', hstep⟩ | ⟨k', v', hsv', hkms', hp', hstep⟩ |
      ⟨k', v', p', hsv', hkms', hp', hmal', hstep⟩
    · rw [hstep] at h
      cases h
    · rw [hstep] at h
      cases List.mem_cons.mp hmem with
      | inl heq =>
        subst heq
        rw [hsp] at hsv'
        have hk1 : k = k' := congrArg Prod.fst (Option.some.inj hsv')
        have hk2 : v = v' := congrArg Prod.snd (Option.some.inj hsv')
        rw [← hk1, ← hk2] at h
        obtain ⟨_, h2, _⟩ := classifyLoop_acc_sub e nofail l _ _ _ svs kvs uniq h
        exact h2 (List.mem_append_right _ (List.mem_singleton.mpr rfl))
      | inr hmem' => exact ih _ _ _ svs kvs uniq s k v h hmem' hsp hkms
    · rw [hstep] at h
      cases List.mem_cons.mp hmem with
      | inl heq =>
        subst heq
        rw [hsp] at hsv'
        cases hsv'
        rw [hkms'] at hkms
        cases hkms
      | inr hmem' => exact ih _ _ _ svs kvs uniq s k v h hmem' hsp hkms
    · rw [hstep] at h
      cases List.mem_cons.mp hmem with
      | inl heq =>
        subst heq
        rw [hsp] at hsv'
        cases hsv'
        rw [hkms'] at hkms
        cases hkms
      | inr hmem' => exact ih _ _ _ svs kvs uniq s k v h hmem' hsp hkms

/-- The deduplicated name list stays duplicate-free. -/
theorem classifyLoop_uniq_nodup (e : Expander) (nofail : Bool) :
    ∀ (l : List String) (sv : List SsmVar) (kv : List KmsVar) (u : List String)
      (svs : List SsmVar) (kvs : List KmsVar) (uniq : List String),
      classifyLoop e nofail l sv kv u = .ok (svs, kvs, uniq) →
      u.Nodup → uniq.Nodup := by
  intro l
  induction l with
  | nil =>
    intro sv kv u svs kvs uniq h hu
    simp only [classifyLoop] at h
    cases h
    exact hu
  | cons s l ih =>
    intro sv kv u svs kvs uniq h hu
    rcases classify_step e nofail s with ⟨er, hstep⟩ |
      ⟨k, v, _, _, hstep⟩ | ⟨k, v, _, _, _, hstep⟩ | ⟨k, v, p, _, _, _, _, hstep⟩
    · rw [hstep] at h
      cases h
    · rw [hstep] at h
      exact ih _ _ _ svs kvs uniq h hu
    · rw [hstep] at h
      exact ih _ _ _ svs kvs uniq h hu
    · rw [hstep] at h
      refine ih _ _ _ svs kvs uniq h ?_
      by_cases hp : p ∈ u
      · rw [if_pos hp]
        exact hu
      · rw [if_neg hp]
          
        refine List.Nodup.append hu (List.nodup_singleton p) ?_
        intro a ha hb
        have : a = p := by simpa using hb
        rw [this] at ha
        exact hp ha

/-- Duplicate-free keys determine values: two entries of the environment
with the same name are the same entry. -/
theorem nodup_key_eq {l : List (String × String)} (h : (l.map Prod.fst).Nodup)
    {a b c : String} (h1 : (a, b) ∈ l) (h2 : (a, c) ∈ l) : b = c := by
  induction l with
  | nil => simp at h1
  | cons p ps ih =>
    simp only [List.map_cons, List.nodup_cons] at h
    cases List.mem_cons.mp h1 with
    | inl e1 =>
      cases List.mem_cons.mp h2 with
      | inl e2 =>
        rw [← e1] at e2
        injection e2 with h1 h2
        exact h2.symm
      | inr e2 =>
        exfalso
        apply h.1
        rw [← e1]
        exact List.mem_map.mpr ⟨(a, c), e2, rfl⟩
    | inr e1 =>
      cases List.mem_cons.mp h2 with
      | inl e2 =>
        exfalso
        apply h.1
        rw [← e2]
        exact List.mem_map.mpr ⟨(a, b), e1, rfl⟩
      | inr e2 => exact ih h.2 e1 e2

end SsmEnv

namespace SsmEnv

/-! ### Case lemmas for getParameters and expandEnviron -/

/-- Strict mode: a failing store call aborts `getParameters` with the raw
client error and an empty map. -/
theorem getParameters_fail_strict (client : GetParametersInput → SsmCallResult)
    (names : List String) (decrypt : Bool) (m : String)
    (h : (client { names := names, withDecryption := decrypt }).err = some m) :
    getParameters client names decrypt false =
      { values := [], diags := [], err := some (.callError m) } := by
  simp only [getParameters, h]

/-- A clean response (no error, no invalid parameters) yields the built
values map in either mode. -/
theorem getParameters_clean (client : GetParametersInput → SsmCallResult)
    (names : List String) (decrypt nofail : Bool) (out : GetParametersOutput)
    (h : client { names := names, withDecryption := decrypt } = ⟨some out, none⟩)
    (hinv : out.invalidParameters = []) :
    getParameters client names decrypt nofail =
      { values := buildValues out.parameters, diags := [], err := none } := by
  cases nofail with
  | false => simp [getParameters, h, hinv]
  | true => simp [getParameters, h, hinv]

/-- Best-effort mode tolerates a call error alongside a response: the
response is still processed. -/
theorem getParameters_nofail (client : GetParametersInput → SsmCallResult)
    (names : List String) (decrypt : Bool) (out : GetParametersOutput)
    (oe : Option String)
    (h : client { names := names, withDecryption := decrypt } = ⟨some out, oe⟩)
    (hinv : out.invalidParameters = []) :
    getParameters client names decrypt true =
      { values := buildValues out.parameters, diags := [], err := none } := by
  cases oe with
  | none => simp [getParameters, h, hinv]
  | some m => simp [getParameters, h, hinv]

/-- Strict mode: a response carrying invalid parameters aborts with
`invalidParametersError` over the non-nil rejected names; the values map of
the same response is discarded. -/
theorem getParameters_invalid_strict (client : GetParametersInput → SsmCallResult)
    (names : List String) (decrypt : Bool) (out : GetParametersOutput)
    (h : client { names := names, withDecryption := decrypt } = ⟨some out, none⟩)
    (hinv : 0 < out.invalidParameters.length) :
    getParameters client names decrypt false =
      { values := [], diags := []
        err := some (.invalidParametersError (invalidList out)) } := by
  simp [getParameters, h, hinv]

/-- Best-effort mode: invalid parameters only produce a diagnostic, and the
valid entries of the same response are still used. -/
theorem getParameters_invalid_nofail (client : GetParametersInput → SsmCallResult)
    (names : List String) (decrypt : Bool) (out : GetParametersOutput)
    (oe : Option String)
    (h : client { names := names, withDecryption := decrypt } = ⟨some out, oe⟩)
    (hinv : 0 < out.invalidParameters.length) :
    getParameters client names decrypt true =
      { values := buildValues out.parameters
        diags := [.invalidParametersError (invalidList out)], err := none } := by
  cases oe with
  | none => simp [getParameters, h, hinv]
  | some m => simp [getParameters, h, hinv]

/-- Unfolding of `expandEnviron` when classification aborts. -/
theorem expandEnviron_classify_err (e : Expander) (decrypt nofail : Bool)
    (env0 : List (String × String)) (er : GoError)
    (hc : classifyLoop e nofail (environList env0) [] [] [] = .error er) :
    expandEnviron e decrypt nofail env0 =
      { env := env0, ssmCalls := [], setenvCalls := [], diags := [], err := some er } := by
  simp only [expandEnviron, hc]

/-- Unfolding of `expandEnviron` after a successful classification. -/
theorem expandEnviron_classify_ok (e : Expander) (decrypt nofail : Bool)
    (env0 : List (String × String)) (svs : List SsmVar) (kvs : List KmsVar)
    (uniq : List String)
    (hc : classifyLoop e nofail (environList env0) [] [] [] = .ok (svs, kvs, uniq)) :
    expandEnviron e decrypt nofail env0 =
      (match (ssmPhase e decrypt nofail svs (chunkList e.batchSize uniq)
          { env := env0, ssmCalls := [], setenvCalls := [], diags := [] }).2 with
       | some err =>
         { env := (ssmPhase e decrypt nofail svs (chunkList e.batchSize uniq)
             { env := env0, ssmCalls := [], setenvCalls := [], diags := [] }).1.env
           ssmCalls := (ssmPhase e decrypt nofail svs (chunkList e.batchSize uniq)
             { env := env0, ssmCalls := [], setenvCalls := [], diags := [] }).1.ssmCalls
           setenvCalls := (ssmPhase e decrypt nofail svs (chunkList e.batchSize uniq)
             { env := env0, ssmCalls := [], setenvCalls := [], diags := [] }).1.setenvCalls
           diags := (ssmPhase e decrypt nofail svs (chunkList e.batchSize uniq)
             { env := env0, ssmCalls := [], setenvCalls := [], diags := [] }).1.diags
           err := some err }
       | none =>
         { env := (kmsPhase e nofail kvs (ssmPhase e decrypt nofail svs
             (chunkList e.batchSize uniq)
             { env := env0, ssmCalls := [], setenvCalls := [], diags := [] }).1).1.env
           ssmCalls := (kmsPhase e nofail kvs (ssmPhase e decrypt nofail svs
             (chunkList e.batchSize uniq)
             { env := env0, ssmCalls := [], setenvCalls := [], diags := [] }).1).1.ssmCalls
           setenvCalls := (kmsPhase e nofail kvs (ssmPhase e decrypt nofail svs
             (chunkList e.batchSize uniq)
             { env := env0, ssmCalls := [], setenvCalls := [], diags := [] }).1).1.setenvCalls
           diags := (kmsPhase e nofail kvs (ssmPhase e decrypt nofail svs
             (chunkList e.batchSize uniq)
             { env := env0, ssmCalls := [], setenvCalls := [], diags := [] }).1).1.diags
           err := (kmsPhase e nofail kvs (ssmPhase e decrypt nofail svs
             (chunkList e.batchSize uniq)
             { env := env0, ssmCalls := [], setenvCalls := [], diags := [] }).1).2 }) := by
  simp only [expandEnviron, hc]

end SsmEnv

namespace SsmEnv

/-! ### Lemmas about the values map construction -/

theorem lookup_mapInsert_self (m : List (String × String)) (k v : String) :
    mapLookup (mapInsert m k v) k = some v := by
  unfold mapInsert mapLookup
  rw [find_append_self]
  · rfl
  · rw [List.any_eq_false]
    intro p hp
    have h2 := (List.mem_filter.mp hp).2
    simp at h2 ⊢
    exact h2

theorem find_filter_ne (m : List (String × String)) (k q : String) (hne : q ≠ k) :
    List.find? (fun p => p.1 == q) (m.filter (fun p => p.1 ≠ k)) =
      List.find? (fun p => p.1 == q) m := by
  induction m with
  | nil => rfl
  | cons p ps ih =>
    by_cases hp : p.1 = k
    · have hdrop : (decide (p.1 ≠ k)) = false := by simp [hp]
      have hq : (p.1 == q) = false := by
        simp only [beq_eq_false_iff_ne, ne_eq, hp]
        exact fun h => hne h.symm
      rw [List.filter_cons, hdrop]
      simp only [Bool.false_eq_true, if_false]
      rw [findq_cons_neg (fun p => p.1 == q) p ps hq]
      exact ih
    · have hkeep : (decide (p.1 ≠ k)) = true := by simp [hp]
      rw [List.filter_cons, hkeep]
      simp only [if_true]
      by_cases hq : (p.1 == q) = true
      · rw [findq_cons_pos (fun p => p.1 == q) p _ hq,
            findq_cons_pos (fun p => p.1 == q) p _ hq]
      · have hq' : (p.1 == q) = false := by simpa using hq
        rw [findq_cons_neg (fun p => p.1 == q) p _ hq',
            findq_cons_neg (fun p => p.1 == q) p _ hq']
        exact ih

theorem lookup_mapInsert_ne (m : List (String × String)) (k v q : String)
    (hne : q ≠ k) : mapLookup (mapInsert m k v) q = mapLookup m q := by
  unfold mapInsert mapLookup
  rw [find_append_ne _ _ _ _ hne, find_filter_ne m k q hne]

theorem lookup_buildValues_none (params : List Parameter) (q : String)
    (h : ∀ p ∈ params, effectiveName p ≠ q) :
    mapLookup (buildValues params) q = none := by
  suffices h2 : ∀ m : List (String × String), mapLookup m q = none →
      mapLookup (params.foldl (fun m p => mapInsert m (effectiveName p) p.value) m) q = none by
    exact h2 [] rfl
  induction params with
  | nil => intro m hm; exact hm
  | cons p ps ih =>
    intro m hm
    simp only [List.foldl_cons]
    refine ih (fun x hx => h x (List.mem_cons_of_mem p hx)) (mapInsert m (effectiveName p) p.value) ?_
    rw [lookup_mapInsert_ne m (effectiveName p) p.value q
      (fun he => h p (List.mem_cons_self p ps) he.symm)]
    exact hm

/-- Non-empty selector suffixes change the key. -/
theorem append_ne_of_ne_empty (a s : String) (hs : s ≠ "") : a ++ s ≠ a := by
  intro h
  apply hs
  have hlen := congrArg String.length h
  rw [String.length_append] at hlen
  have hzero : s.length = 0 := by omega
  cases s with
  | mk data =>
    cases data with
    | nil => rfl
    | cons c cs => simp [String.length] at hzero

end SsmEnv

namespace SsmEnv

/-- Claim C8: for every parameter in a store response, the effective key used to
match it back onto pending variables is the returned base name with the
selector suffix appended when a selector is present, and the base name
alone otherwise; consequently a versioned result (non-empty selector)
resolves only the versioned lookup key `name ++ s` and never the bare
`name`, an unversioned result resolves only `name` and never `name ++ s`,
and a key matching no returned effective name resolves to nothing. -/
theorem c8_effective_key (name s val q : String) (params : List Parameter) :
    (∀ p : Parameter, p.selector = some s → effectiveName p = p.name ++ s) ∧
    (∀ p : Parameter, p.selector = none → effectiveName p = p.name) ∧
    (s ≠ "" →
      mapLookup (buildValues [⟨name, val, some s⟩]) (name ++ s) = some val ∧
      mapLookup (buildValues [⟨name, val, some s⟩]) name = none ∧
      mapLookup (buildValues [⟨name, val, none⟩]) name = some val ∧
      mapLookup (buildValues [⟨name, val, none⟩]) (name ++ s) = none) ∧
    ((∀ p ∈ params, effectiveName p ≠ q) → mapLookup (buildValues params) q = none) := by
  refine ⟨?_, ?_, ?_, lookup_buildValues_none params q⟩
  · intro p hp
    simp [effectiveName, hp]
  · intro p hp
    simp [effectiveName, hp]
  · intro hs
    have hne := append_ne_of_ne_empty name s hs
    exact ⟨lookup_mapInsert_self [] (name ++ s) val,
      (lookup_mapInsert_ne [] (name ++ s) val name (fun h => hne h.symm)).trans rfl,
      lookup_mapInsert_self [] name val,
      (lookup_mapInsert_ne [] name val (name ++ s) hne).trans rfl⟩

/-- Witness for C8 at the versioned key of the Go test
(`/secret` with selector `:1`). -/
theorem c8_effective_key_witness :
    ((":1" : String) ≠ "" ∧
      (∀ p ∈ [(⟨"/secret", "versioned", some ":1"⟩ : Parameter)],
        effectiveName p ≠ "/zzz")) ∧
    mapLookup (buildValues [⟨"/secret", "versioned", some ":1"⟩])
      ("/secret" ++ ":1") = some "versioned" ∧
    mapLookup (buildValues [⟨"/secret", "versioned", some ":1"⟩])
      "/secret" = none ∧
    mapLookup (buildValues [⟨"/secret", "versioned", some ":1"⟩]) "/zzz" = none := by
  have h := c8_effective_key "/secret" ":1" "versioned" "/zzz"
    [⟨"/secret", "versioned", some ":1"⟩]
  have hs : (":1" : String) ≠ "" := by decide
  have hq : ∀ p ∈ [(⟨"/secret", "versioned", some ":1"⟩ : Parameter)],
      effectiveName p ≠ "/zzz" := by decide
  exact ⟨⟨hs, hq⟩, (h.2.2.1 hs).1, (h.2.2.1 hs).2.1, h.2.2.2 hq⟩

end SsmEnv

namespace SsmEnv

theorem batchCallsOf_nil_values (svs : List SsmVar) : batchCallsOf svs [] = [] := by
  unfold batchCallsOf
  induction svs with
  | nil => rfl
  | cons sv svt ih => simp [List.filterMap_cons, mapLookup, List.find?, ih]

theorem phaseCallsOf_empty (e : Expander) (decrypt nofail : Bool) (svs : List SsmVar)
    (batches : List (List String))
    (h : ∀ b ∈ batches, (getParameters e.ssm b decrypt nofail).values = []) :
    phaseCallsOf e decrypt nofail svs batches = [] := by
  unfold phaseCallsOf
  induction batches with
  | nil => rfl
  | cons b bs ih =>
    rw [List.map_cons, List.flatten_cons, h b (List.mem_cons_self b bs),
      batchCallsOf_nil_values]
    rw [List.nil_append]
    exact ih (fun x hx => h x (List.mem_cons_of_mem b hx))

/-- Claim C1: for every batch whose store call itself fails the way the AWS SDK
fails (an error value returned alongside an allocated empty response): in
best-effort mode the batch contributes zero resolved values and the whole
expansion still completes without error, mutating nothing; in strict mode
the expansion aborts with the underlying call error.  The last two
conjuncts state the per-batch behaviour of `getParameters` itself: a
failing call returns the raw error in strict mode and an empty value map
with no error in best-effort mode. -/
theorem c1_store_call_failure (e : Expander) (decrypt : Bool)
    (env0 : List (String × String)) (m : String)
    (svs : List SsmVar) (uniq : List String)
    (hclient : ∀ inp : GetParametersInput, e.ssm inp = ⟨some ⟨[], []⟩, some m⟩)
    (hc : classifyLoop e false (environList env0) [] [] [] = .ok (svs, [], uniq)) :
    ((expandEnviron e decrypt true env0).err = none ∧
     (expandEnviron e decrypt true env0).setenvCalls = [] ∧
     (expandEnviron e decrypt true env0).env = env0) ∧
    (uniq ≠ [] → (expandEnviron e decrypt false env0).err = some (.callError m)) ∧
    (∀ (client : GetParametersInput → SsmCallResult) (names : List String) (d : Bool),
      (client { names := names, withDecryption := d }).err = some m →
      getParameters client names d false =
        { values := [], diags := [], err := some (.callError m) }) ∧
    (∀ (client : GetParametersInput → SsmCallResult) (names : List String) (d : Bool),
      client { names := names, withDecryption := d } = ⟨some ⟨[], []⟩, some m⟩ →
      getParameters client names d true =
        { values := [], diags := [], err := none }) := by
  have hc' := classifyLoop_true_of_false e (environList env0) [] [] [] (svs, [], uniq) hc
  refine ⟨?_, ?_, ?_, ?_⟩
  · -- best-effort completion
    have hok : ∀ b ∈ chunkList e.batchSize uniq,
        (getParameters e.ssm b decrypt true).err = none := by
      intro b _
      rw [getParameters_nofail e.ssm b decrypt ⟨[], []⟩ (some m) (hclient _) rfl]
    have hval : ∀ b ∈ chunkList e.batchSize uniq,
        (getParameters e.ssm b decrypt true).values = [] := by
      intro b _
      rw [getParameters_nofail e.ssm b decrypt ⟨[], []⟩ (some m) (hclient _) rfl]
      rfl
    have hcalls := phaseCallsOf_empty e decrypt true svs (chunkList e.batchSize uniq) hval
    rw [expandEnviron_classify_ok e decrypt true env0 svs [] uniq hc',
      ssmPhase_ok e decrypt true svs (chunkList e.batchSize uniq) _ hok]
    simp [kmsPhase, hcalls, applyCalls]
  · -- strict abort
    intro hne
    cases huniq : uniq with
    | nil => exact absurd huniq hne
    | cons x xs =>
      have herr : (getParameters e.ssm (x :: xs.take (e.batchSize - 1)) decrypt false).err =
          some (.callError m) := by
        rw [getParameters_fail_strict e.ssm _ decrypt m (by rw [hclient])]
      rw [expandEnviron_classify_ok e decrypt false env0 svs [] uniq hc, huniq,
        chunkList_cons]
      rw [show (x :: xs.take (e.batchSize - 1)) :: chunkList e.batchSize (xs.drop (e.batchSize - 1)) =
        [] ++ (x :: xs.take (e.batchSize - 1)) :: chunkList e.batchSize (xs.drop (e.batchSize - 1)) from rfl]
      rw [ssmPhase_abort e decrypt false svs (.callError m) []
        (x :: xs.take (e.batchSize - 1)) (chunkList e.batchSize (xs.drop (e.batchSize - 1)))
        _ (by intro y hy; simp at hy) herr]
  · intro client names d h
    exact getParameters_fail_strict client names d m h
  · intro client names d h
    exact getParameters_nofail client names d ⟨[], []⟩ (some m) h rfl

def c1exp : Expander :=
  ⟨defaultTmpl, fun _ => ⟨some ⟨[], []⟩, some "boom"⟩,
   fun _ => ⟨none, some "unused"⟩, 10⟩

/-- Witness for C1: a store whose every call fails with error `boom` while
returning the SDK's empty output; one SSM reference `A=ssm:///x`. -/
theorem c1_store_call_failure_witness :
    ((∀ inp : GetParametersInput, c1exp.ssm inp = ⟨some ⟨[], []⟩, some "boom"⟩) ∧
     classifyLoop c1exp false (environList [("A", "ssm:///x")]) [] [] [] =
       .ok ([⟨"A", "/x"⟩], [], ["/x"]) ∧
     (["/x"] : List String) ≠ []) ∧
    (expandEnviron c1exp false true [("A", "ssm:///x")]).err = none ∧
    (expandEnviron c1exp false true [("A", "ssm:///x")]).env = [("A", "ssm:///x")] ∧
    (expandEnviron c1exp false false [("A", "ssm:///x")]).err =
      some (.callError "boom") := by
  have h1 : ∀ inp : GetParametersInput, c1exp.ssm inp = ⟨some ⟨[], []⟩, some "boom"⟩ :=
    fun _ => rfl
  have h2 : classifyLoop c1exp false (environList [("A", "ssm:///x")]) [] [] [] =
      .ok ([⟨"A", "/x"⟩], [], ["/x"]) := by rfl
  have h := c1_store_call_failure c1exp false [("A", "ssm:///x")] "boom"
    [⟨"A", "/x"⟩] ["/x"] h1 h2
  exact ⟨⟨h1, h2, by decide⟩, h.1.1, h.1.2.2, h.2.1 (by decide)⟩

end SsmEnv

namespace SsmEnv

/-- `splitCharsOn` never returns the empty list (Go `strings.Split` returns
at least one segment). -/
theorem splitCharsOn_ne_nil (sep : Char) (l : List Char) : splitCharsOn sep l ≠ [] := by
  induction l with
  | nil => simp [splitCharsOn]
  | cons c cs ih =>
    simp only [splitCharsOn]
    cases h : splitCharsOn sep cs with
    | nil => exact absurd h ih
    | cons r rs =>
      by_cases hc : c = sep
      · simp [hc]
      · simp [hc]

/-- Splitting a list with no separator yields one segment. -/
theorem splitCharsOn_no_sep (sep : Char) :
    ∀ l : List Char, sep ∉ l → splitCharsOn sep l = [l] := by
  intro l
  induction l with
  | nil => intro _; rfl
  | cons c cs ih =>
    intro h
    have hc : c ≠ sep := fun he => h (he ▸ List.mem_cons_self c cs)
    have hcs : sep ∉ cs := fun hm => h (List.mem_cons_of_mem c hm)
    simp only [splitCharsOn]
    rw [ih hcs]
    simp [hc]

/-- Splitting around the first separator: the prefix before it becomes the
first segment. -/
theorem splitCharsOn_append (sep : Char) (b : List Char) :
    ∀ a : List Char, sep ∉ a →
      splitCharsOn sep (a ++ sep :: b) = a :: splitCharsOn sep b := by
  intro a
  induction a with
  | nil =>
    intro _
    simp only [List.nil_append, splitCharsOn]
    cases h : splitCharsOn sep b with
    | nil => exact absurd h (splitCharsOn_ne_nil sep b)
    | cons r rs => simp
  | cons c cs ih =>
    intro ha
    have hc : c ≠ sep := fun he => ha (he ▸ List.mem_cons_self c cs)
    have hcs : sep ∉ cs := fun hm => ha (List.mem_cons_of_mem c hm)
    simp only [List.cons_append, splitCharsOn, List.append_eq]
    rw [ih hcs]
    simp [hc]

/-- The characters of a rendered `KEY=VALUE` entry. -/
theorem render_data (k v : String) :
    (k ++ "=" ++ v).data = k.data ++ padChar :: v.data := by
  rw [String.data_append, String.data_append, List.append_assoc]
  rfl

/-- Rendering then splitting an entry whose name contains no `=` yields the
name as the key. -/
theorem splitVar_render (k v : String) (hk : padChar ∉ k.data) :
    ∃ v' : String, splitVar (k ++ "=" ++ v) = some (k, v') := by
  cases hv : splitCharsOn padChar v.data with
  | nil => exact absurd hv (splitCharsOn_ne_nil padChar v.data)
  | cons r rs =>
    refine ⟨String.mk r, ?_⟩
    unfold splitVar
    rw [show (Char.ofNat 61) = padChar from rfl, render_data,
      splitCharsOn_append padChar v.data k.data hk, hv]

end SsmEnv

namespace SsmEnv

/-- Membership in the SSM-phase call list: every `Setenv` traces back to a
batch whose values map resolved some pending variable's parameter. -/
theorem phaseCallsOf_mem (e : Expander) (decrypt nofail : Bool)
    (svs : List SsmVar) (batches : List (List String)) (c : String × String)
    (hc : c ∈ phaseCallsOf e decrypt nofail svs batches) :
    ∃ b ∈ batches, ∃ sv ∈ svs, sv.envvar = c.1 ∧
      mapLookup (getParameters e.ssm b decrypt nofail).values sv.parameter = some c.2 := by
  unfold phaseCallsOf at hc
  rw [List.mem_flatten] at hc
  obtain ⟨l, hl, hcl⟩ := hc
  rw [List.mem_map] at hl
  obtain ⟨b, hb, hbl⟩ := hl
  rw [← hbl] at hcl
  obtain ⟨sv, hsv, hcall, hlook⟩ := batchCallsOf_mem svs _ c hcl
  exact ⟨b, hb, sv, hsv, by rw [hcall], hlook⟩

/-- Frame property of the whole expansion: an environment entry whose name
is hit by no classified variable is never `Setenv`-ed and survives
unchanged, whatever the clients do and whatever errors occur. -/
theorem expandEnviron_frame (e : Expander) (decrypt nofail : Bool)
    (env0 : List (String × String)) (svs : List SsmVar) (kvs : List KmsVar)
    (uniq : List String) (name value : String)
    (hc : classifyLoop e nofail (environList env0) [] [] [] = .ok (svs, kvs, uniq))
    (hmem : (name, value) ∈ env0)
    (hssm : ∀ sv ∈ svs, sv.envvar ≠ name)
    (hkms : ∀ kv ∈ kvs, kv.envvar ≠ name) :
    (name, value) ∈ (expandEnviron e decrypt nofail env0).env ∧
    name ∉ (expandEnviron e decrypt nofail env0).setenvCalls.map Prod.fst := by
  rw [expandEnviron_classify_ok e decrypt nofail env0 svs kvs uniq hc]
  obtain ⟨calls1, he1, hs1, hk1⟩ :=
    ssmPhase_shape e decrypt nofail svs (chunkList e.batchSize uniq)
      { env := env0, ssmCalls := [], setenvCalls := [], diags := [] }
  have hne1 : ∀ c ∈ calls1, c.1 ≠ name := by
    intro c hcc
    obtain ⟨sv, hsv, he⟩ := List.mem_map.mp (hk1 c hcc)
    rw [← he]
    exact hssm sv hsv
  cases h2 : (ssmPhase e decrypt nofail svs (chunkList e.batchSize uniq)
      { env := env0, ssmCalls := [], setenvCalls := [], diags := [] }).2 with
  | some er =>
    refine ⟨?_, ?_⟩
    · rw [he1]
      exact mem_applyCalls_of_ne calls1 hmem hne1
    · rw [hs1, List.nil_append]
      intro hname
      obtain ⟨c, hcc, hce⟩ := List.mem_map.mp hname
      exact hne1 c hcc hce
  | none =>
    obtain ⟨calls2, he2, hs2, _, hk2⟩ :=
      kmsPhase_shape e nofail kvs
        (ssmPhase e decrypt nofail svs (chunkList e.batchSize uniq)
          { env := env0, ssmCalls := [], setenvCalls := [], diags := [] }).1
    have hne2 : ∀ c ∈ calls2, c.1 ≠ name := by
      intro c hcc
      obtain ⟨kv, hkv, he⟩ := List.mem_map.mp (hk2 c hcc)
      rw [← he]
      exact hkms kv hkv
    refine ⟨?_, ?_⟩
    · rw [he2, he1]
      exact mem_applyCalls_of_ne calls2 (mem_applyCalls_of_ne calls1 hmem hne1) hne2
    · rw [hs2, hs1, List.nil_append]
      intro hname
      obtain ⟨c, hcc, hce⟩ := List.mem_map.mp hname
      cases List.mem_append.mp hcc with
      | inl h' => exact hne1 c h' hce
      | inr h' => exact hne2 c h' hce

end SsmEnv

namespace SsmEnv

/-- Claim C7: an environment entry classified Plain — its (truncated) value does
not carry the `!kms ` marker and the template derives the empty string — is
never passed to `Setenv`, and the entry survives byte-for-byte in the final
environment, in every mode and for every client behaviour. -/
theorem c7_plain_unchanged (e : Expander) (decrypt nofail : Bool)
    (env0 : List (String × String)) (name value v' : String)
    (hmem : (name, value) ∈ env0)
    (hnd : (env0.map Prod.fst).Nodup)
    (hkeys : ∀ p ∈ env0, padChar ∉ p.1.data)
    (hv' : splitVar (name ++ "=" ++ value) = some (name, v'))
    (hkms : goHasPre v' kmsTag = false)
    (htpl : parameter e name v' = .ok none) :
    (name, value) ∈ (expandEnviron e decrypt nofail env0).env ∧
    name ∉ (expandEnviron e decrypt nofail env0).setenvCalls.map Prod.fst := by
  cases hcl : classifyLoop e nofail (environList env0) [] [] [] with
  | error er =>
    rw [expandEnviron_classify_err e decrypt nofail env0 er hcl]
    exact ⟨hmem, by simp⟩
  | ok r =>
    obtain ⟨svs, kvs, uniq⟩ := r
    -- an entry of env0 matching the name must be our Plain entry
    have hentry : ∀ p ∈ env0, ∀ w : String,
        splitVar (p.1 ++ "=" ++ p.2) = some (p.1, w) → p.1 = name → w = v' := by
      intro p hp w hw hn
      have hpmem : (name, p.2) ∈ env0 := by
        rw [← hn]
        exact hp
      have hval : p.2 = value := nodup_key_eq hnd hpmem hmem
      rw [hn, hval] at hw
      rw [hv'] at hw
      exact (congrArg Prod.snd (Option.some.inj hw)).symm
    have hssm : ∀ sv ∈ svs, sv.envvar ≠ name := by
      intro sv hsv he
      rcases classifyLoop_prov_ssm e nofail _ [] [] [] svs kvs uniq hcl sv hsv with
        h0 | ⟨s, hs, kk, vv, pp, hsp, hkk, hpar, hsveq⟩
      · simp at h0
      · obtain ⟨p, hp, hps⟩ := List.mem_map.mp hs
        obtain ⟨w, hw⟩ := splitVar_render p.1 p.2 (hkeys p hp)
        rw [← hps] at hsp
        rw [hw] at hsp
        have hk1 : p.1 = kk := congrArg Prod.fst (Option.some.inj hsp)
        have hk2 : w = vv := congrArg Prod.snd (Option.some.inj hsp)
        have hkn : kk = name := by
          rw [hsveq] at he
          exact he
        have hwv : w = v' := hentry p hp w hw (hk1.trans hkn)
        rw [hkn, hk2.symm.trans hwv, htpl] at hpar
        exact Option.noConfusion (Except.ok.inj hpar)
    have hkms2 : ∀ kv ∈ kvs, kv.envvar ≠ name := by
      intro kv hkv he
      rcases classifyLoop_prov_kms e nofail _ [] [] [] svs kvs uniq hcl kv hkv with
        h0 | ⟨s, hs, kk, vv, hsp, hkk, hkveq⟩
      · simp at h0
      · obtain ⟨p, hp, hps⟩ := List.mem_map.mp hs
        obtain ⟨w, hw⟩ := splitVar_render p.1 p.2 (hkeys p hp)
        rw [← hps] at hsp
        rw [hw] at hsp
        have hk1 : p.1 = kk := congrArg Prod.fst (Option.some.inj hsp)
        have hk2 : w = vv := congrArg Prod.snd (Option.some.inj hsp)
        have hkn : kk = name := by
          rw [hkveq] at he
          exact he
        have hwv : w = v' := hentry p hp w hw (hk1.trans hkn)
        rw [← hk2, hwv, hkms] at hkk
        exact Bool.noConfusion hkk
    exact expandEnviron_frame e decrypt nofail env0 svs kvs uniq name value hcl
      hmem hssm hkms2

def c7exp : Expander :=
  ⟨defaultTmpl, fun _ => ⟨some ⟨[], []⟩, none⟩, fun _ => ⟨none, some "unused"⟩, 10⟩

/-- Witness for C7: the entry `SHELL=/bin/bash` is Plain and survives an
expansion that resolves `SUPER_SECRET=ssm:///secret`. -/
theorem c7_plain_unchanged_witness :
    (("SHELL", "/bin/bash") ∈
        [("SHELL", "/bin/bash"), ("SUPER_SECRET", "ssm:///secret")] ∧
      (([("SHELL", "/bin/bash"), ("SUPER_SECRET", "ssm:///secret")].map
        (Prod.fst (α := String) (β := String))).Nodup) ∧
      splitVar ("SHELL" ++ "=" ++ "/bin/bash") = some ("SHELL", "/bin/bash") ∧
      goHasPre "/bin/bash" kmsTag = false ∧
      parameter c7exp "SHELL" "/bin/bash" = .ok none) ∧
    ("SHELL", "/bin/bash") ∈
      (expandEnviron c7exp false false
        [("SHELL", "/bin/bash"), ("SUPER_SECRET", "ssm:///secret")]).env ∧
    "SHELL" ∉ (expandEnviron c7exp false false
      [("SHELL", "/bin/bash"), ("SUPER_SECRET", "ssm:///secret")]).setenvCalls.map
        Prod.fst := by
  have h := c7_plain_unchanged c7exp false false
    [("SHELL", "/bin/bash"), ("SUPER_SECRET", "ssm:///secret")]
    "SHELL" "/bin/bash" "/bin/bash" (by decide) (by decide) (by decide)
    (by rfl) (by decide) (by rfl)
  exact ⟨⟨by decide, by decide, by rfl, by decide, by rfl⟩, h.1, h.2⟩

end SsmEnv

namespace SsmEnv

def c2exp : Expander :=
  ⟨defaultTmpl, fun inp => ⟨some ⟨[], inp.names.map some⟩, none⟩,
   fun _ => ⟨none, some "unused"⟩, 1⟩

/-- Counterexample to C2 as stated: two references fall into two batches
(batch size 1) and the store rejects every requested name, yet the strict
expansion aborts after the first batch with an error naming only `/a`; the
second batch — whose call would have reported `/b` invalid — is never
issued, so the error does not name every invalid key from every batch. -/
theorem c2_counterexample :
    (expandEnviron c2exp false false [("A", "ssm:///a"), ("B", "ssm:///b")]).err =
      some (.invalidParametersError ["/a"]) ∧
    (expandEnviron c2exp false false [("A", "ssm:///a"), ("B", "ssm:///b")]).ssmCalls =
      [["/a"]] ∧
    (c2exp.ssm { names := ["/b"], withDecryption := false }).resp =
      some ⟨[], [some "/b"]⟩ ∧
    "/b" ∉ (["/a"] : List String) := by
  exact ⟨by rfl, by rfl, by rfl, by decide⟩

/-- Claim C2, amended: in strict mode, the expansion fails on the FIRST batch
whose response reports invalid keys, with an `invalidParametersError`
listing exactly the non-nil invalid names of that batch's response; batches
after it are not issued at all. -/
theorem c2_first_batch_invalid (e : Expander) (decrypt : Bool)
    (env0 : List (String × String)) (svs : List SsmVar) (kvs : List KmsVar)
    (uniq : List String) (pre : List (List String)) (b : List String)
    (post : List (List String)) (out : GetParametersOutput)
    (hc : classifyLoop e false (environList env0) [] [] [] = .ok (svs, kvs, uniq))
    (hchunk : chunkList e.batchSize uniq = pre ++ b :: post)
    (hpre : ∀ x ∈ pre, (getParameters e.ssm x decrypt false).err = none)
    (hresp : e.ssm { names := b, withDecryption := decrypt } = ⟨some out, none⟩)
    (hinv : 0 < out.invalidParameters.length) :
    (expandEnviron e decrypt false env0).err =
      some (.invalidParametersError (invalidList out)) ∧
    (expandEnviron e decrypt false env0).ssmCalls = pre ++ [b] := by
  have herr := getParameters_invalid_strict e.ssm b decrypt out hresp hinv
  rw [expandEnviron_classify_ok e decrypt false env0 svs kvs uniq hc, hchunk,
    ssmPhase_abort e decrypt false svs (.invalidParametersError (invalidList out))
      pre b post _ hpre (by rw [herr])]
  exact ⟨rfl, by simp⟩

/-- Witness for the amended C2, at the counterexample's input: the first
batch `["/a"]` reports `/a` invalid, the error lists exactly `["/a"]` and
only that batch is issued. -/
theorem c2_first_batch_invalid_witness :
    (classifyLoop c2exp false (environList [("A", "ssm:///a"), ("B", "ssm:///b")])
        [] [] [] = .ok ([⟨"A", "/a"⟩, ⟨"B", "/b"⟩], [], ["/a", "/b"]) ∧
      chunkList c2exp.batchSize ["/a", "/b"] = [] ++ ["/a"] :: [["/b"]] ∧
      c2exp.ssm { names := ["/a"], withDecryption := false } =
        ⟨some ⟨[], [some "/a"]⟩, none⟩ ∧
      0 < ([some "/a"] : List (Option String)).length) ∧
    (expandEnviron c2exp false false [("A", "ssm:///a"), ("B", "ssm:///b")]).err =
      some (.invalidParametersError (invalidList ⟨[], [some "/a"]⟩)) ∧
    (expandEnviron c2exp false false [("A", "ssm:///a"), ("B", "ssm:///b")]).ssmCalls =
      [] ++ [["/a"]] := by
  have h := c2_first_batch_invalid c2exp false [("A", "ssm:///a"), ("B", "ssm:///b")]
    [⟨"A", "/a"⟩, ⟨"B", "/b"⟩] [] ["/a", "/b"] [] ["/a"] [["/b"]] ⟨[], [some "/a"]⟩
    (by rfl) (by rfl) (by intro x hx; simp at hx) (by rfl) (by decide)
  exact ⟨⟨by rfl, by rfl, by rfl, by decide⟩, h.1, h.2⟩

def c4exp : Expander :=
  ⟨defaultTmpl, fun _ => ⟨some ⟨[], []⟩, none⟩, fun _ => ⟨none, some "unused"⟩, 10⟩

/-- Counterexample to C4 as stated: the store's response omits the
requested key `/x` from both the resolved and the invalid lists, yet the
STRICT expansion returns no error at all — the claim requires the error to
be surfaced like an invalid-parameter error in strict mode — and the
variable silently keeps its literal. -/
theorem c4_counterexample :
    (expandEnviron c4exp false false [("A", "ssm:///x")]).err = none ∧
    (expandEnviron c4exp false false [("A", "ssm:///x")]).env = [("A", "ssm:///x")] ∧
    (expandEnviron c4exp false false [("A", "ssm:///x")]).ssmCalls = [["/x"]] := by
  exact ⟨by rfl, by rfl, by rfl⟩

/-- Claim C4, amended: a requested key absent from both the resolved list and
the invalid list of the response causes NO error in either mode —
`getParameters` returns error-free with a values map lacking that key, so
the referencing variable silently keeps its literal value in strict mode
exactly as in best-effort mode. -/
theorem c4_missing_key_silent (client : GetParametersInput → SsmCallResult)
    (names : List String) (decrypt nofail : Bool) (n : String)
    (out : GetParametersOutput)
    (h : client { names := names, withDecryption := decrypt } = ⟨some out, none⟩)
    (hinv : out.invalidParameters = [])
    (hmiss : ∀ p ∈ out.parameters, effectiveName p ≠ n) :
    (getParameters client names decrypt nofail).err = none ∧
    mapLookup (getParameters client names decrypt nofail).values n = none ∧
    (∀ nf : Bool, (expandEnviron c4exp false nf [("A", "ssm:///x")]).err = none ∧
      (expandEnviron c4exp false nf [("A", "ssm:///x")]).setenvCalls = [] ∧
      (expandEnviron c4exp false nf [("A", "ssm:///x")]).env = [("A", "ssm:///x")]) := by
  rw [getParameters_clean client names decrypt nofail out h hinv]
  refine ⟨rfl, lookup_buildValues_none out.parameters n hmiss, ?_⟩
  intro nf
  cases nf with
  | false => exact ⟨by rfl, by rfl, by rfl⟩
  | true => exact ⟨by rfl, by rfl, by rfl⟩

/-- Witness for the amended C4. -/
theorem c4_missing_key_silent_witness :
    (c4exp.ssm { names := ["/x"], withDecryption := false } = ⟨some ⟨[], []⟩, none⟩ ∧
      (⟨[], []⟩ : GetParametersOutput).invalidParameters = [] ∧
      (∀ p ∈ (⟨[], []⟩ : GetParametersOutput).parameters, effectiveName p ≠ "/x")) ∧
    (getParameters c4exp.ssm ["/x"] false false).err = none ∧
    mapLookup (getParameters c4exp.ssm ["/x"] false false).values "/x" = none ∧
    (expandEnviron c4exp false true [("A", "ssm:///x")]).err = none := by
  have h := c4_missing_key_silent c4exp.ssm ["/x"] false false "/x" ⟨[], []⟩
    (by rfl) (by rfl) (by decide)
  exact ⟨⟨by rfl, by rfl, by decide⟩, h.1, h.2.1, (h.2.2 true).1⟩

end SsmEnv

namespace SsmEnv

/-- The KMS phase never issues store calls. -/
theorem kmsPhase_ssmCalls (e : Expander) (nofail : Bool) :
    ∀ (kvs : List KmsVar) (st : ExpandState),
      (kmsPhase e nofail kvs st).1.ssmCalls = st.ssmCalls := by
  intro kvs
  induction kvs with
  | nil => intro st; rfl
  | cons kv rest ih =>
    intro st
    simp only [kmsPhase]
    cases h : decryptKmsValue e kv.encoded nofail with
    | error er =>
      by_cases hnf : nofail = true
      · subst hnf
        simp only [if_true]
        exact ih _
      · have hnf' : nofail = false := Bool.eq_false_iff.mpr hnf
        subst hnf'
        simp
    | ok val =>
      dsimp only
      exact ih _

/-- Claim C6: with a positive batch limit and every issued call returning without
fatal error, the expansion issues exactly `ceil(n / N)` store calls over the
`n` distinct derived keys, each call carries between 1 and `N` keys, the
issued batches concatenate back to exactly the deduplicated key list (a
partition: each distinct key appears exactly once across all calls), and
zero references mean zero calls. -/
theorem c6_batching (e : Expander) (decrypt nofail : Bool)
    (env0 : List (String × String)) (svs : List SsmVar) (kvs : List KmsVar)
    (uniq : List String)
    (hbs : 1 ≤ e.batchSize)
    (hc : classifyLoop e nofail (environList env0) [] [] [] = .ok (svs, kvs, uniq))
    (hok : ∀ b ∈ chunkList e.batchSize uniq,
      (getParameters e.ssm b decrypt nofail).err = none) :
    (expandEnviron e decrypt nofail env0).ssmCalls = chunkList e.batchSize uniq ∧
    (expandEnviron e decrypt nofail env0).ssmCalls.length =
      (uniq.length + e.batchSize - 1) / e.batchSize ∧
    (∀ b ∈ (expandEnviron e decrypt nofail env0).ssmCalls,
      b.length ≤ e.batchSize ∧ b ≠ []) ∧
    (expandEnviron e decrypt nofail env0).ssmCalls.flatten = uniq ∧
    uniq.Nodup ∧
    (∀ p ∈ uniq, (expandEnviron e decrypt nofail env0).ssmCalls.flatten.count p = 1) ∧
    (uniq = [] → (expandEnviron e decrypt nofail env0).ssmCalls = []) := by
  have hnd : uniq.Nodup :=
    classifyLoop_uniq_nodup e nofail _ [] [] [] svs kvs uniq hc List.nodup_nil
  have hcalls : (expandEnviron e decrypt nofail env0).ssmCalls =
      chunkList e.batchSize uniq := by
    rw [expandEnviron_classify_ok e decrypt nofail env0 svs kvs uniq hc,
      ssmPhase_ok e decrypt nofail svs (chunkList e.batchSize uniq) _ hok]
    simp [kmsPhase_ssmCalls]
  refine ⟨hcalls, ?_, ?_, ?_, hnd, ?_, ?_⟩
  · rw [hcalls, chunkList_length e.batchSize hbs uniq]
  · rw [hcalls]
    exact fun b hb => chunkList_sizes e.batchSize hbs uniq b hb
  · rw [hcalls]
    exact chunkList_join e.batchSize uniq
  · intro p hp
    rw [hcalls, chunkList_join]
    exact List.count_eq_one_of_mem hnd hp
  · intro h
    rw [hcalls, h]
    rfl

def c6exp : Expander :=
  ⟨defaultTmpl, fun _ => ⟨some ⟨[], []⟩, none⟩, fun _ => ⟨none, some "unused"⟩, 2⟩

/-- Witness for C6: three distinct keys, batch limit 2, hence two calls of
sizes 2 and 1 partitioning the keys. -/
theorem c6_batching_witness :
    (1 ≤ c6exp.batchSize ∧
      classifyLoop c6exp false
        (environList [("A", "ssm:///a"), ("B", "ssm:///b"), ("C", "ssm:///c")])
        [] [] [] = .ok ([⟨"A", "/a"⟩, ⟨"B", "/b"⟩, ⟨"C", "/c"⟩], [], ["/a", "/b", "/c"]) ∧
      (∀ b ∈ chunkList c6exp.batchSize ["/a", "/b", "/c"],
        (getParameters c6exp.ssm b false false).err = none)) ∧
    (expandEnviron c6exp false false
      [("A", "ssm:///a"), ("B", "ssm:///b"), ("C", "ssm:///c")]).ssmCalls =
      [["/a", "/b"], ["/c"]] ∧
    (expandEnviron c6exp false false
      [("A", "ssm:///a"), ("B", "ssm:///b"), ("C", "ssm:///c")]).ssmCalls.length =
      (3 + 2 - 1) / 2 ∧
    (expandEnviron c6exp false false
      [("A", "ssm:///a"), ("B", "ssm:///b"), ("C", "ssm:///c")]).ssmCalls.flatten =
      ["/a", "/b", "/c"] := by
  have h := c6_batching c6exp false false
    [("A", "ssm:///a"), ("B", "ssm:///b"), ("C", "ssm:///c")]
    [⟨"A", "/a"⟩, ⟨"B", "/b"⟩, ⟨"C", "/c"⟩] [] ["/a", "/b", "/c"]
    (by decide) (by rfl) (by decide)
  refine ⟨⟨by decide, by rfl, by decide⟩, ?_, h.2.1, h.2.2.2.1⟩
  rw [h.1]
  rfl

end SsmEnv

namespace SsmEnv

theorem goLen_shift (l : List Char) :
    ∀ init : Nat, l.foldl (fun n c => n + charBytes c) init =
      init + l.foldl (fun n c => n + charBytes c) 0 := by
  induction l with
  | nil => intro init; simp
  | cons c cs ih =>
    intro init
    simp only [List.foldl_cons]
    rw [ih (init + charBytes c), ih (0 + charBytes c)]
    omega

theorem goLen_append (a b : String) : goLen (a ++ b) = goLen a + goLen b := by
  unfold goLen
  rw [String.data_append, List.foldl_append, goLen_shift]

/-- Claim C10: `splitVar` splits the entry on every `=` and returns only the
first and second segments, so a value containing `=` (such as base64
padding of a `!kms` payload) reaches classification truncated at its first
`=`; the payload extraction then sees the truncated text, and the padding
lost this way is recovered exactly because `decryptKmsValue` re-pads inputs
whose byte length is not a multiple of four, making the decryption of the
truncated payload equal to that of the original. -/
theorem c10_splitvar_truncation (e : Expander) (nofail : Bool)
    (k v1 rest b : String)
    (hk : padChar ∉ k.data) (hv1 : padChar ∉ v1.data) :
    splitVar (k ++ "=" ++ (v1 ++ "=" ++ rest)) = some (k, v1) ∧
    splitVar (k ++ "=" ++ v1) = some (k, v1) ∧
    (goTrim b.data kmsCutset = b.data →
      String.mk (goTrim (("!kms " ++ b).data.drop kmsTag.data.length) kmsCutset) = b) ∧
    (goLen b % 4 = 2 →
      kmsPad b = b ++ "==" ∧
      decryptKmsValue e b nofail = decryptKmsValue e (b ++ "==") nofail) := by
  refine ⟨?_, ?_, ?_, ?_⟩
  · unfold splitVar
    rw [show (Char.ofNat 61) = padChar from rfl, render_data,
      splitCharsOn_append padChar (v1 ++ "=" ++ rest).data k.data hk,
      render_data v1 rest,
      splitCharsOn_append padChar rest.data v1.data hv1]
  · unfold splitVar
    rw [show (Char.ofNat 61) = padChar from rfl, render_data,
      splitCharsOn_append padChar v1.data k.data hk,
      splitCharsOn_no_sep padChar v1.data hv1]
  · intro htrim
    have hdrop : ("!kms " ++ b).data.drop kmsTag.data.length = b.data := by
      rw [String.data_append,
        show kmsTag.data.length = ("!kms " : String).data.length from rfl,
        List.drop_left]
    rw [hdrop, htrim]
  · intro h
    have hpad : kmsPad b = b ++ "==" := by
      unfold kmsPad
      rw [h]
      rw [if_pos (by decide)]
      rfl
    have hlen2 : goLen (b ++ "==") % 4 = 0 := by
      rw [goLen_append]
      have h2 : goLen "==" = 2 := by decide
      rw [h2]
      omega
    have hpad2 : kmsPad (b ++ "==") = b ++ "==" := by
      unfold kmsPad
      rw [hlen2]
      simp
    refine ⟨hpad, ?_⟩
    unfold decryptKmsValue
    rw [hpad, hpad2]

/-- Witness for C10: entry `K=!kms QUJDREVGR0g=`; the split truncates the
payload to `QUJDREVGR0g` (11 bytes), and re-padding restores `=`. -/
theorem c10_splitvar_truncation_witness :
    (padChar ∉ ("K" : String).data ∧ padChar ∉ ("!kms QUJDREVGR0g" : String).data ∧
      goTrim ("QQ" : String).data kmsCutset = ("QQ" : String).data ∧
      goLen "QQ" % 4 = 2) ∧
    splitVar ("K" ++ "=" ++ ("!kms QUJDREVGR0g" ++ "=" ++ "")) =
      some ("K", "!kms QUJDREVGR0g") ∧
    String.mk (goTrim (("!kms " ++ "QQ").data.drop kmsTag.data.length) kmsCutset) = "QQ" ∧
    kmsPad "QQ" = "QQ" ++ "==" ∧
    decryptKmsValue c6exp "QQ" false = decryptKmsValue c6exp ("QQ" ++ "==") false := by
  have h := c10_splitvar_truncation c6exp false "K" "!kms QUJDREVGR0g" "" "QQ"
    (by decide) (by decide)
  exact ⟨⟨by decide, by decide, by decide, by decide⟩, h.1,
    h.2.2.1 (by decide), (h.2.2.2 (by decide)).1, (h.2.2.2 (by decide)).2⟩

end SsmEnv

namespace SsmEnv

/-- Under a hygienic environment (names without `=`), every collected SSM
variable is the classification of one environment entry, keyed by that
entry's name; its parameter name is in the deduplicated set. -/
theorem classify_entry_ssm (e : Expander) (nofail : Bool)
    (env0 : List (String × String)) (svs : List SsmVar) (kvs : List KmsVar)
    (uniq : List String)
    (hkeys : ∀ p ∈ env0, padChar ∉ p.1.data)
    (hc : classifyLoop e nofail (environList env0) [] [] [] = .ok (svs, kvs, uniq)) :
    ∀ sv ∈ svs, ∃ p ∈ env0, ∃ w pp : String,
      splitVar (p.1 ++ "=" ++ p.2) = some (p.1, w) ∧
      goHasPre w kmsTag = false ∧
      parameter e p.1 w = .ok (some pp) ∧ sv = ⟨p.1, pp⟩ ∧ pp ∈ uniq := by
  intro sv hsv
  rcases classifyLoop_prov_ssm e nofail _ [] [] [] svs kvs uniq hc sv hsv with
    h0 | ⟨s, hs, kk, vv, pp, hsp, hkk, hpar, hsveq⟩
  · simp at h0
  · obtain ⟨p, hp, hps⟩ := List.mem_map.mp hs
    obtain ⟨w, hw⟩ := splitVar_render p.1 p.2 (hkeys p hp)
    have hsp' := hsp
    rw [← hps, hw] at hsp'
    have hk1 : p.1 = kk := congrArg Prod.fst (Option.some.inj hsp')
    have hk2 : w = vv := congrArg Prod.snd (Option.some.inj hsp')
    refine ⟨p, hp, w, pp, hw, by rw [hk2, hkk], by rw [hk1, hk2]; exact hpar, by rw [hsveq, hk1], ?_⟩
    exact (classifyLoop_mem_ssm e nofail _ [] [] [] svs kvs uniq s kk vv pp hc hs hsp hkk hpar).2

/-- Analogue of `classify_entry_ssm` for the collected KMS variables. -/
theorem classify_entry_kms (e : Expander) (nofail : Bool)
    (env0 : List (String × String)) (svs : List SsmVar) (kvs : List KmsVar)
    (uniq : List String)
    (hkeys : ∀ p ∈ env0, padChar ∉ p.1.data)
    (hc : classifyLoop e nofail (environList env0) [] [] [] = .ok (svs, kvs, uniq)) :
    ∀ kv ∈ kvs, ∃ p ∈ env0, ∃ w : String,
      splitVar (p.1 ++ "=" ++ p.2) = some (p.1, w) ∧
      goHasPre w kmsTag = true ∧
      kv = ⟨p.1, String.mk (goTrim (w.data.drop kmsTag.data.length) kmsCutset)⟩ := by
  intro kv hkv
  rcases classifyLoop_prov_kms e nofail _ [] [] [] svs kvs uniq hc kv hkv with
    h0 | ⟨s, hs, kk, vv, hsp, hkk, hkveq⟩
  · simp at h0
  · obtain ⟨p, hp, hps⟩ := List.mem_map.mp hs
    obtain ⟨w, hw⟩ := splitVar_render p.1 p.2 (hkeys p hp)
    rw [← hps, hw] at hsp
    have hk1 : p.1 = kk := congrArg Prod.fst (Option.some.inj hsp)
    have hk2 : w = vv := congrArg Prod.snd (Option.some.inj hsp)
    exact ⟨p, hp, w, hw, by rw [hk2, hkk], by rw [hkveq, hk1, hk2]⟩

/-- Two entries of a hygienic environment with the same name coincide. -/
theorem entry_eq_of_name (env0 : List (String × String))
    (hnd : (env0.map Prod.fst).Nodup) (p q : String × String)
    (hp : p ∈ env0) (hq : q ∈ env0) (h : p.1 = q.1) : p = q := by
  have h2 : p.2 = q.2 := by
    have hp' : (q.1, p.2) ∈ env0 := by
      rw [← h]
      exact hp
    have hq' : (q.1, q.2) ∈ env0 := hq
    exact nodup_key_eq hnd hp' hq'
  exact Prod.ext h h2

/-- In a hygienic environment, a variable name determines its classified
SSM variable, and no name is classified both as SSM and KMS. -/
theorem classify_envvar_uniq (e : Expander) (nofail : Bool)
    (env0 : List (String × String)) (svs : List SsmVar) (kvs : List KmsVar)
    (uniq : List String)
    (hnd : (env0.map Prod.fst).Nodup)
    (hkeys : ∀ p ∈ env0, padChar ∉ p.1.data)
    (hc : classifyLoop e nofail (environList env0) [] [] [] = .ok (svs, kvs, uniq)) :
    (∀ sv ∈ svs, ∀ sv' ∈ svs, sv.envvar = sv'.envvar → sv = sv') ∧
    (∀ sv ∈ svs, ∀ kv ∈ kvs, sv.envvar ≠ kv.envvar) ∧
    (∀ kv ∈ kvs, ∀ kv' ∈ kvs, kv.envvar = kv'.envvar → kv = kv') := by
  refine ⟨?_, ?_, ?_⟩
  · intro sv hsv sv' hsv' he
    obtain ⟨p, hp, w, pp, hw, hwk, hpar, hsveq, _⟩ :=
      classify_entry_ssm e nofail env0 svs kvs uniq hkeys hc sv hsv
    obtain ⟨q, hq, w', pp', hw', hwk', hpar', hsveq', _⟩ :=
      classify_entry_ssm e nofail env0 svs kvs uniq hkeys hc sv' hsv'
    have hpq : p = q := by
      refine entry_eq_of_name env0 hnd p q hp hq ?_
      rw [hsveq, hsveq'] at he
      exact he
    subst hpq
    rw [hw] at hw'
    have hww : w = w' := congrArg Prod.snd (Option.some.inj hw')
    rw [← hww] at hpar'
    rw [hpar] at hpar'
    have hpp : pp = pp' := Option.some.inj (Except.ok.inj hpar')
    rw [hsveq, hsveq', hpp]
  · intro sv hsv kv hkv he
    obtain ⟨p, hp, w, pp, hw, hwk, hpar, hsveq, _⟩ :=
      classify_entry_ssm e nofail env0 svs kvs uniq hkeys hc sv hsv
    obtain ⟨q, hq, w', hw', hwk', hkveq⟩ :=
      classify_entry_kms e nofail env0 svs kvs uniq hkeys hc kv hkv
    have hpq : p = q := by
      refine entry_eq_of_name env0 hnd p q hp hq ?_
      rw [hsveq, hkveq] at he
      exact he
    subst hpq
    rw [hw] at hw'
    have hww : w = w' := congrArg Prod.snd (Option.some.inj hw')
    rw [← hww] at hwk'
    rw [hwk] at hwk'
    exact Bool.noConfusion hwk'
  · intro kv hkv kv' hkv' he
    obtain ⟨p, hp, w, hw, hwk, hkveq⟩ :=
      classify_entry_kms e nofail env0 svs kvs uniq hkeys hc kv hkv
    obtain ⟨q, hq, w', hw', hwk', hkveq'⟩ :=
      classify_entry_kms e nofail env0 svs kvs uniq hkeys hc kv' hkv'
    have hpq : p = q := by
      refine entry_eq_of_name env0 hnd p q hp hq ?_
      rw [hkveq, hkveq'] at he
      exact he
    subst hpq
    rw [hw] at hw'
    have hww : w = w' := congrArg Prod.snd (Option.some.inj hw')
    rw [hkveq, hkveq', hww]

end SsmEnv

namespace SsmEnv

/-- A call produced by one issued batch is among the phase's calls. -/
theorem phaseCallsOf_intro (e : Expander) (decrypt nofail : Bool)
    (svs : List SsmVar) (batches : List (List String)) (b : List String)
    (c : String × String) (hb : b ∈ batches)
    (hc : c ∈ batchCallsOf svs (getParameters e.ssm b decrypt nofail).values) :
    c ∈ phaseCallsOf e decrypt nofail svs batches := by
  unfold phaseCallsOf
  rw [List.mem_flatten]
  exact ⟨batchCallsOf svs (getParameters e.ssm b decrypt nofail).values,
    List.mem_map.mpr ⟨b, hb, rfl⟩, hc⟩

/-- Shape of a successful-SSM-phase expansion, in either mode: the final
environment is the initial one with the SSM-phase calls applied, then some
KMS-phase calls whose names come from the KMS variables. -/
theorem expandEnviron_ok_shape (e : Expander) (decrypt nofail : Bool)
    (env0 : List (String × String)) (svs : List SsmVar) (kvs : List KmsVar)
    (uniq : List String)
    (hc : classifyLoop e nofail (environList env0) [] [] [] = .ok (svs, kvs, uniq))
    (hok : ∀ b ∈ chunkList e.batchSize uniq,
      (getParameters e.ssm b decrypt nofail).err = none) :
    ∃ calls2 : List (String × String),
      (expandEnviron e decrypt nofail env0).env =
        applyCalls (applyCalls env0
          (phaseCallsOf e decrypt nofail svs (chunkList e.batchSize uniq))) calls2 ∧
      (expandEnviron e decrypt nofail env0).setenvCalls =
        phaseCallsOf e decrypt nofail svs (chunkList e.batchSize uniq) ++ calls2 ∧
      (∀ c ∈ calls2, c.1 ∈ kvs.map KmsVar.envvar) := by
  rw [expandEnviron_classify_ok e decrypt nofail env0 svs kvs uniq hc,
    ssmPhase_ok e decrypt nofail svs (chunkList e.batchSize uniq) _ hok]
  obtain ⟨calls2, h1, h2, _, h4⟩ := kmsPhase_shape e nofail kvs
    { env := applyCalls env0
        (phaseCallsOf e decrypt nofail svs (chunkList e.batchSize uniq))
      ssmCalls := [] ++ chunkList e.batchSize uniq
      setenvCalls := [] ++ phaseCallsOf e decrypt nofail svs (chunkList e.batchSize uniq)
      diags := [] ++ phaseDiagsOf e decrypt nofail (chunkList e.batchSize uniq) }
  exact ⟨calls2, h1, h2.trans (by simp), h4⟩

/-- Full characterisation of a best-effort expansion whose store calls all
return without fatal error. -/
theorem expandEnviron_nofail_shape (e : Expander) (decrypt : Bool)
    (env0 : List (String × String)) (svs : List SsmVar) (kvs : List KmsVar)
    (uniq : List String)
    (hc : classifyLoop e true (environList env0) [] [] [] = .ok (svs, kvs, uniq))
    (hok : ∀ b ∈ chunkList e.batchSize uniq,
      (getParameters e.ssm b decrypt true).err = none) :
    (expandEnviron e decrypt true env0).err = none ∧
    (expandEnviron e decrypt true env0).env =
      applyCalls (applyCalls env0
        (phaseCallsOf e decrypt true svs (chunkList e.batchSize uniq)))
        (kmsCallsOf e kvs) ∧
    (expandEnviron e decrypt true env0).setenvCalls =
      phaseCallsOf e decrypt true svs (chunkList e.batchSize uniq) ++ kmsCallsOf e kvs ∧
    (expandEnviron e decrypt true env0).diags =
      phaseDiagsOf e decrypt true (chunkList e.batchSize uniq) ++ kmsDiagsOf e kvs := by
  rw [expandEnviron_classify_ok e decrypt true env0 svs kvs uniq hc,
    ssmPhase_ok e decrypt true svs (chunkList e.batchSize uniq) _ hok,
    kmsPhase_nofail]
  exact ⟨rfl, rfl, by simp, by simp⟩

end SsmEnv

namespace SsmEnv

/-- Claim C5: entries whose values derive the same lookup key are deduplicated —
the key appears exactly once across all issued requests — a single store
resolution provides its value, and that one value is applied via `Setenv`
to every variable referencing the key, ending as each such variable's final
value. -/
theorem c5_dedup_fanout (e : Expander) (decrypt nofail : Bool)
    (env0 : List (String × String)) (svs : List SsmVar) (kvs : List KmsVar)
    (uniq : List String) (k val : String)
    (hnd : (env0.map Prod.fst).Nodup)
    (hkeys : ∀ p ∈ env0, padChar ∉ p.1.data)
    (hc : classifyLoop e nofail (environList env0) [] [] [] = .ok (svs, kvs, uniq))
    (hok : ∀ b ∈ chunkList e.batchSize uniq,
      (getParameters e.ssm b decrypt nofail).err = none)
    (hres : ∀ b ∈ chunkList e.batchSize uniq,
      mapLookup (getParameters e.ssm b decrypt nofail).values k =
        if k ∈ b then some val else none) :
    uniq.Nodup ∧
    (k ∈ uniq → (chunkList e.batchSize uniq).flatten.count k = 1) ∧
    (∀ sv ∈ svs, sv.parameter = k →
      (sv.envvar, val) ∈ (expandEnviron e decrypt nofail env0).setenvCalls ∧
      mapLookup (expandEnviron e decrypt nofail env0).env sv.envvar = some val) := by
  have hnduniq : uniq.Nodup :=
    classifyLoop_uniq_nodup e nofail _ [] [] [] svs kvs uniq hc List.nodup_nil
  refine ⟨hnduniq, ?_, ?_⟩
  · intro hk
    rw [chunkList_join]
    exact List.count_eq_one_of_mem hnduniq hk
  · intro sv hsv hsvp
    obtain ⟨p, hp, w, pp, hw, hwk, hpar, hsveq, hppu⟩ :=
      classify_entry_ssm e nofail env0 svs kvs uniq hkeys hc sv hsv
    have hpar_eq : sv.parameter = pp := by
      rw [hsveq]
    have hku : k ∈ uniq := by
      rw [← hsvp, hpar_eq]
      exact hppu
    obtain ⟨huS, huSK, _⟩ := classify_envvar_uniq e nofail env0 svs kvs uniq hnd hkeys hc
    obtain ⟨calls2, henv, hset, hkeys2⟩ :=
      expandEnviron_ok_shape e decrypt nofail env0 svs kvs uniq hc hok
    -- the batch containing k resolves it; our variable is set with val
    have hkflat : k ∈ (chunkList e.batchSize uniq).flatten := by
      rw [chunkList_join]
      exact hku
    obtain ⟨bk, hbk, hkbk⟩ := List.mem_flatten.mp hkflat
    have hlook : mapLookup (getParameters e.ssm bk decrypt nofail).values sv.parameter =
        some val := by
      rw [hsvp, hres bk hbk, if_pos hkbk]
    have hmemP : (sv.envvar, val) ∈
        phaseCallsOf e decrypt nofail svs (chunkList e.batchSize uniq) :=
      phaseCallsOf_intro e decrypt nofail svs (chunkList e.batchSize uniq) bk _ hbk
        (batchCallsOf_intro svs _ sv val hsv hlook)
    -- every SSM-phase call named sv.envvar carries val
    have huniqval : ∀ v : String,
        (sv.envvar, v) ∈ phaseCallsOf e decrypt nofail svs (chunkList e.batchSize uniq) →
        v = val := by
      intro v hv
      obtain ⟨b, hb, sv', hsv', hname, hlook'⟩ :=
        phaseCallsOf_mem e decrypt nofail svs (chunkList e.batchSize uniq) _ hv
      have hsveq' : sv' = sv := huS sv' hsv' sv hsv hname
      rw [hsveq', hsvp, hres b hb] at hlook'
      by_cases hkb : k ∈ b
      · rw [if_pos hkb] at hlook'
        exact (Option.some.inj hlook').symm
      · rw [if_neg hkb] at hlook'
        exact Option.noConfusion hlook'
    -- no KMS-phase call touches sv.envvar
    have hkms_ne : ∀ c ∈ calls2, c.1 ≠ sv.envvar := by
      intro c hcc he
      obtain ⟨kv, hkv, hkve⟩ := List.mem_map.mp (hkeys2 c hcc)
      exact huSK sv hsv kv hkv (hkve.trans he).symm
    refine ⟨?_, ?_⟩
    · rw [hset]
      exact List.mem_append_left _ hmemP
    · rw [henv, lookup_applyCalls, lastSet_eq_none hkms_ne, lookup_applyCalls,
        lastSet_eq_some hmemP huniqval]

def c5exp : Expander :=
  ⟨defaultTmpl,
   fun inp => if inp.names = ["/secret"] then
     ⟨some ⟨[⟨"/secret", "hehe", none⟩], []⟩, none⟩ else ⟨none, some "bad"⟩,
   fun _ => ⟨none, some "unused"⟩, 10⟩

/-- Witness for C5: the duplicate-reference test of the Go suite — `A` and
`B` both reference `ssm:///secret`, one call resolves `/secret` to `hehe`,
both variables end as `hehe`. -/
theorem c5_dedup_fanout_witness :
    (classifyLoop c5exp false
        (environList [("SUPER_SECRET_A", "ssm:///secret"), ("SUPER_SECRET_B", "ssm:///secret")])
        [] [] [] =
      .ok ([⟨"SUPER_SECRET_A", "/secret"⟩, ⟨"SUPER_SECRET_B", "/secret"⟩], [], ["/secret"]) ∧
      (∀ b ∈ chunkList c5exp.batchSize ["/secret"],
        (getParameters c5exp.ssm b false false).err = none) ∧
      (∀ b ∈ chunkList c5exp.batchSize ["/secret"],
        mapLookup (getParameters c5exp.ssm b false false).values "/secret" =
          if "/secret" ∈ b then some "hehe" else none)) ∧
    (chunkList c5exp.batchSize ["/secret"]).flatten.count "/secret" = 1 ∧
    ("SUPER_SECRET_A", "hehe") ∈
      (expandEnviron c5exp false false
        [("SUPER_SECRET_A", "ssm:///secret"), ("SUPER_SECRET_B", "ssm:///secret")]).setenvCalls ∧
    mapLookup (expandEnviron c5exp false false
      [("SUPER_SECRET_A", "ssm:///secret"), ("SUPER_SECRET_B", "ssm:///secret")]).env
      "SUPER_SECRET_A" = some "hehe" ∧
    mapLookup (expandEnviron c5exp false false
      [("SUPER_SECRET_A", "ssm:///secret"), ("SUPER_SECRET_B", "ssm:///secret")]).env
      "SUPER_SECRET_B" = some "hehe" := by
  have h := c5_dedup_fanout c5exp false false
    [("SUPER_SECRET_A", "ssm:///secret"), ("SUPER_SECRET_B", "ssm:///secret")]
    [⟨"SUPER_SECRET_A", "/secret"⟩, ⟨"SUPER_SECRET_B", "/secret"⟩] [] ["/secret"]
    "/secret" "hehe" (by decide) (by decide) (by rfl) (by decide) (by decide)
  have hA := h.2.2 ⟨"SUPER_SECRET_A", "/secret"⟩ (by decide) (by rfl)
  have hB := h.2.2 ⟨"SUPER_SECRET_B", "/secret"⟩ (by decide) (by rfl)
  exact ⟨⟨by rfl, by decide, by decide⟩, h.2.1 (by decide), hA.1, hA.2, hB.2⟩

end SsmEnv

namespace SsmEnv

/-- A payload that fails base64 decoding after re-padding makes
`decryptKmsValue` fail with a decode error, in either mode. -/
theorem decryptKmsValue_decode_fail (e : Expander) (enc : String) (nofail : Bool)
    (h : goB64Decode (kmsPad enc) = none) :
    decryptKmsValue e enc nofail = .error (.decodeError (kmsPad enc)) := by
  simp only [decryptKmsValue, h]

/-- An error-free strict-mode `getParameters` call is also error-free in
best-effort mode. -/
theorem getParameters_err_mono (client : GetParametersInput → SsmCallResult)
    (names : List String) (decrypt : Bool)
    (h : (getParameters client names decrypt false).err = none) :
    (getParameters client names decrypt true).err = none := by
  simp only [getParameters] at h ⊢
  cases hr : (client { names := names, withDecryption := decrypt }).err with
  | some m =>
    rw [hr] at h
    exact Option.noConfusion h
  | none =>
    rw [hr] at h
    dsimp only at h ⊢
    cases hresp : (client { names := names, withDecryption := decrypt }).resp with
    | none =>
      rw [hresp] at h
      dsimp only at h
      exact Option.noConfusion h
    | some out =>
      rw [hresp] at h
      dsimp only at h
      by_cases hinv : 0 < out.invalidParameters.length
      · rw [if_pos hinv] at h
        simp only [Bool.false_eq_true, if_false] at h
        exact Option.noConfusion h
      · rw [if_neg hinv] at h
        dsimp only
        rw [if_neg hinv]

theorem kmsDiagsOf_mem_intro (e : Expander) (kvs : List KmsVar) (kv : KmsVar)
    (er : GoError) (hkv : kv ∈ kvs)
    (h : decryptKmsValue e kv.encoded true = .error er) : er ∈ kmsDiagsOf e kvs := by
  unfold kmsDiagsOf
  rw [List.mem_filterMap]
  exact ⟨kv, hkv, by rw [h]⟩

theorem kmsCallsOf_mem_intro (e : Expander) (kvs : List KmsVar) (kv : KmsVar)
    (s : String) (hkv : kv ∈ kvs)
    (h : decryptKmsValue e kv.encoded true = .ok s) :
    (kv.envvar, s) ∈ kmsCallsOf e kvs := by
  unfold kmsCallsOf
  rw [List.mem_filterMap]
  exact ⟨kv, hkv, by rw [h]⟩

theorem kmsCallsOf_mem (e : Expander) (kvs : List KmsVar) (c : String × String)
    (hc : c ∈ kmsCallsOf e kvs) :
    ∃ kv ∈ kvs, kv.envvar = c.1 ∧ decryptKmsValue e kv.encoded true = .ok c.2 := by
  unfold kmsCallsOf at hc
  rw [List.mem_filterMap] at hc
  obtain ⟨kv, hkv, hmap⟩ := hc
  cases h : decryptKmsValue e kv.encoded true with
  | error er =>
    rw [h] at hmap
    exact Option.noConfusion hmap
  | ok s =>
    rw [h] at hmap
    have h2 : (kv.envvar, s) = c := Option.some.inj hmap
    refine ⟨kv, hkv, ?_, ?_⟩
    · rw [← h2]
    · rw [← h2]
      exact h

/-- Claim C9: an encrypted (`!kms`) entry whose payload fails base64 decoding —
even after re-padding — aborts a strict expansion with the decode error
(once the earlier encrypted variables processed before it succeed), while
a best-effort expansion completes without error: the failing variable is
never `Setenv`-ed and keeps its original literal, a decode-error diagnostic
is emitted, and every other encrypted variable whose payload decrypts still
resolves in the same pass. -/
theorem c9_kms_decode_failure (e : Expander) (decrypt : Bool)
    (env0 : List (String × String)) (svs : List SsmVar) (kvs : List KmsVar)
    (uniq : List String) (name value w enc : String)
    (kpre kpost : List KmsVar)
    (hnd : (env0.map Prod.fst).Nodup)
    (hkeys : ∀ p ∈ env0, padChar ∉ p.1.data)
    (hcF : classifyLoop e false (environList env0) [] [] [] = .ok (svs, kvs, uniq))
    (hmem : (name, value) ∈ env0)
    (hsplit : splitVar (name ++ "=" ++ value) = some (name, w))
    (hwkms : goHasPre w kmsTag = true)
    (henc : enc = String.mk (goTrim (w.data.drop kmsTag.data.length) kmsCutset))
    (hdec : goB64Decode (kmsPad enc) = none)
    (hkvs : kvs = kpre ++ ⟨name, enc⟩ :: kpost)
    (hokF : ∀ b ∈ chunkList e.batchSize uniq,
      (getParameters e.ssm b decrypt false).err = none) :
    ((∀ x ∈ kpre, ∃ s, decryptKmsValue e x.encoded false = .ok s) →
      (expandEnviron e decrypt false env0).err =
        some (.decodeError (kmsPad enc))) ∧
    (expandEnviron e decrypt true env0).err = none ∧
    GoError.decodeError (kmsPad enc) ∈ (expandEnviron e decrypt true env0).diags ∧
    (∀ kv' ∈ kvs, ∀ s : String, decryptKmsValue e kv'.encoded true = .ok s →
      (kv'.envvar, s) ∈ (expandEnviron e decrypt true env0).setenvCalls) ∧
    (name, value) ∈ (expandEnviron e decrypt true env0).env := by
  have hcT := classifyLoop_true_of_false e (environList env0) [] [] [] (svs, kvs, uniq) hcF
  have hokT : ∀ b ∈ chunkList e.batchSize uniq,
      (getParameters e.ssm b decrypt true).err = none :=
    fun b hb => getParameters_err_mono e.ssm b decrypt (hokF b hb)
  obtain ⟨herrT, henvT, hsetT, hdiagT⟩ :=
    expandEnviron_nofail_shape e decrypt env0 svs kvs uniq hcT hokT
  have hkvmem : (⟨name, enc⟩ : KmsVar) ∈ kvs := by
    rw [hkvs]
    exact List.mem_append_right _ (List.mem_cons_self _ _)
  refine ⟨?_, herrT, ?_, ?_, ?_⟩
  · intro hpre
    rw [expandEnviron_classify_ok e decrypt false env0 svs kvs uniq hcF,
      ssmPhase_ok e decrypt false svs (chunkList e.batchSize uniq) _ hokF, hkvs]
    exact kmsPhase_strict_abort e ⟨name, enc⟩ (.decodeError (kmsPad enc))
      (decryptKmsValue_decode_fail e enc false hdec) kpre kpost _ hpre
  · rw [hdiagT]
    exact List.mem_append_right _
      (kmsDiagsOf_mem_intro e kvs ⟨name, enc⟩ _ hkvmem
        (decryptKmsValue_decode_fail e enc true hdec))
  · intro kv' hkv' s hs
    rw [hsetT]
    exact List.mem_append_right _ (kmsCallsOf_mem_intro e kvs kv' s hkv' hs)
  · rw [henvT]
    obtain ⟨_, huSK, huKK⟩ := classify_envvar_uniq e true env0 svs kvs uniq hnd hkeys hcT
    have hP : ∀ c ∈ phaseCallsOf e decrypt true svs (chunkList e.batchSize uniq),
        c.1 ≠ name := by
      intro c hcc he
      obtain ⟨b, hb, sv', hsv', hname, _⟩ :=
        phaseCallsOf_mem e decrypt true svs (chunkList e.batchSize uniq) c hcc
      exact huSK sv' hsv' ⟨name, enc⟩ hkvmem (by rw [hname, he])
    have hK : ∀ c ∈ kmsCallsOf e kvs, c.1 ≠ name := by
      intro c hcc he
      obtain ⟨kv', hkv', hkve, hdk⟩ := kmsCallsOf_mem e kvs c hcc
      have hkveq : kv' = ⟨name, enc⟩ := huKK kv' hkv' ⟨name, enc⟩ hkvmem (by rw [hkve, he])
      rw [hkveq] at hdk
      rw [decryptKmsValue_decode_fail e enc true hdec] at hdk
      exact Except.noConfusion hdk
    exact mem_applyCalls_of_ne _ (mem_applyCalls_of_ne _ hmem hP) hK

end SsmEnv

namespace SsmEnv

def c9exp : Expander :=
  ⟨defaultTmpl, fun _ => ⟨some ⟨[], []⟩, none⟩,
   fun bs => if bs = [65, 66, 67] then ⟨some ⟨"abc"⟩, none⟩ else ⟨none, some "bad ct"⟩,
   10⟩

/-- Witness for C9: `BAD=!kms !!!!` fails base64 decoding while
`GOOD=!kms QUJD` decrypts to `abc`; strict mode aborts with the decode
error, best-effort mode succeeds, keeps `BAD` literal, records the
diagnostic and still resolves `GOOD`. -/
theorem c9_kms_decode_failure_witness :
    (classifyLoop c9exp false
        (environList [("BAD", "!kms !!!!"), ("GOOD", "!kms QUJD")]) [] [] [] =
      .ok ([], [⟨"BAD", "!!!!"⟩, ⟨"GOOD", "QUJD"⟩], []) ∧
      goB64Decode (kmsPad "!!!!") = none ∧
      decryptKmsValue c9exp "QUJD" true = .ok "abc") ∧
    (expandEnviron c9exp false false
      [("BAD", "!kms !!!!"), ("GOOD", "!kms QUJD")]).err =
      some (.decodeError (kmsPad "!!!!")) ∧
    (expandEnviron c9exp false true
      [("BAD", "!kms !!!!"), ("GOOD", "!kms QUJD")]).err = none ∧
    GoError.decodeError (kmsPad "!!!!") ∈
      (expandEnviron c9exp false true
        [("BAD", "!kms !!!!"), ("GOOD", "!kms QUJD")]).diags ∧
    ("GOOD", "abc") ∈ (expandEnviron c9exp false true
      [("BAD", "!kms !!!!"), ("GOOD", "!kms QUJD")]).setenvCalls ∧
    ("BAD", "!kms !!!!") ∈ (expandEnviron c9exp false true
      [("BAD", "!kms !!!!"), ("GOOD", "!kms QUJD")]).env := by
  have h := c9_kms_decode_failure c9exp false
    [("BAD", "!kms !!!!"), ("GOOD", "!kms QUJD")]
    [] [⟨"BAD", "!!!!"⟩, ⟨"GOOD", "QUJD"⟩] [] "BAD" "!kms !!!!" "!kms !!!!" "!!!!"
    [] [⟨"GOOD", "QUJD"⟩]
    (by decide) (by decide) (by rfl) (by decide) (by rfl) (by decide) (by rfl)
    (by rfl) (by rfl)
    (by intro b hb; exact absurd hb (List.not_mem_nil b))
  have hgood := h.2.2.2.1 ⟨"GOOD", "QUJD"⟩ (by decide) "abc" (by rfl)
  exact ⟨⟨by rfl, by rfl, by rfl⟩,
    h.1 (by intro x hx; exact absurd hx (List.not_mem_nil x)),
    h.2.1, h.2.2.1, hgood, h.2.2.2.2⟩

end SsmEnv

namespace SsmEnv

def c3exp : Expander :=
  ⟨defaultTmpl, fun inp => ⟨some ⟨[], inp.names.map some⟩, none⟩,
   fun _ => ⟨none, some "unused"⟩, 10⟩

/-- Counterexample to C3 as stated: in best-effort mode the malformed key
`secret` (no leading `/`) is NOT skipped — a store call containing it IS
issued (`ssmCalls = [["secret"]]`), exactly as the Go test
`TestExpandEnviron_MalformedParametersNofail` mocks; the claim's "no store
call is made for that entry" is false.  The literal value is retained only
because the store resolves nothing for the key. -/
theorem c3_counterexample :
    (expandEnviron c3exp false true [("SUPER_SECRET", "ssm://secret")]).ssmCalls =
      [["secret"]] ∧
    (expandEnviron c3exp false true [("SUPER_SECRET", "ssm://secret")]).env =
      [("SUPER_SECRET", "ssm://secret")] ∧
    (expandEnviron c3exp false true [("SUPER_SECRET", "ssm://secret")]).err = none := by
  exact ⟨by rfl, by rfl, by rfl⟩

/-- Claim C3, amended: a derived lookup key without the required leading `/`
aborts a strict expansion with an error naming the offending `KEY=VALUE`
entry (provided the earlier entries classify cleanly); in best-effort mode
the malformed key is NOT skipped: it is deduplicated and included in an
issued store call like any well-formed key, and the referencing variable
retains its literal value when no issued call resolves that key. -/
theorem c3_malformed_reference (e : Expander) (decrypt : Bool)
    (env0 : List (String × String)) (pre post : List String) (entry : String)
    (sv1 : List SsmVar) (kv1 : List KmsVar) (u1 : List String)
    (name0 value0 v0 p : String)
    (svs : List SsmVar) (kvs : List KmsVar) (uniq : List String)
    (hnd : (env0.map Prod.fst).Nodup)
    (hkeys : ∀ q ∈ env0, padChar ∉ q.1.data)
    (henvsplit : environList env0 = pre ++ entry :: post)
    (hpreC : classifyLoop e false pre [] [] [] = .ok (sv1, kv1, u1))
    (hmem0 : (name0, value0) ∈ env0)
    (hrender : entry = name0 ++ "=" ++ value0)
    (hsp : splitVar entry = some (name0, v0))
    (hnk : goHasPre v0 kmsTag = false)
    (hparam : parameter e name0 v0 = .ok (some p))
    (hslash : goHasPre p "/" = false)
    (hcT : classifyLoop e true (environList env0) [] [] [] = .ok (svs, kvs, uniq))
    (hokT : ∀ b ∈ chunkList e.batchSize uniq,
      (getParameters e.ssm b decrypt true).err = none)
    (hres0 : ∀ b ∈ chunkList e.batchSize uniq,
      mapLookup (getParameters e.ssm b decrypt true).values p = none) :
    (expandEnviron e decrypt false env0).err =
      some (.malformedParameterError entry) ∧
    p ∈ uniq ∧
    (∃ b ∈ (expandEnviron e decrypt true env0).ssmCalls, p ∈ b) ∧
    (name0, value0) ∈ (expandEnviron e decrypt true env0).env := by
  have hentrymem : entry ∈ environList env0 := by
    rw [henvsplit]
    exact List.mem_append_right _ (List.mem_cons_self _ _)
  have hmm := classifyLoop_mem_ssm e true (environList env0) [] [] [] svs kvs uniq
    entry name0 v0 p hcT hentrymem hsp hnk hparam
  have hcalls : (expandEnviron e decrypt true env0).ssmCalls =
      chunkList e.batchSize uniq := by
    rw [expandEnviron_classify_ok e decrypt true env0 svs kvs uniq hcT,
      ssmPhase_ok e decrypt true svs (chunkList e.batchSize uniq) _ hokT]
    simp [kmsPhase_ssmCalls]
  refine ⟨?_, hmm.2, ?_, ?_⟩
  · -- strict: classification aborts at the malformed entry
    have hends : classifyLoop e false (environList env0) [] [] [] =
        .error (.malformedParameterError entry) := by
      rw [henvsplit,
        classifyLoop_append e false pre (entry :: post) [] [] [] sv1 kv1 u1 hpreC]
      simp only [classifyLoop, hsp, hnk, Bool.false_eq_true, if_false, hparam]
      rw [if_pos ⟨by rw [hslash]; simp, by simp⟩]
    rw [expandEnviron_classify_err e decrypt false env0 _ hends]
  · -- best-effort: the malformed key is requested
    have hpflat : p ∈ (chunkList e.batchSize uniq).flatten := by
      rw [chunkList_join]
      exact hmm.2
    obtain ⟨b, hb, hpb⟩ := List.mem_flatten.mp hpflat
    exact ⟨b, by rw [hcalls]; exact hb, hpb⟩
  · -- best-effort: the variable keeps its literal when nothing resolves p
    obtain ⟨huS, huSK, _⟩ := classify_envvar_uniq e true env0 svs kvs uniq hnd hkeys hcT
    obtain ⟨_, henvT, _, _⟩ :=
      expandEnviron_nofail_shape e decrypt env0 svs kvs uniq hcT hokT
    rw [henvT]
    refine mem_applyCalls_of_ne _ (mem_applyCalls_of_ne _ hmem0 ?_) ?_
    · intro c hcc he
      obtain ⟨b, hb, sv', hsv', hname, hlook⟩ :=
        phaseCallsOf_mem e decrypt true svs (chunkList e.batchSize uniq) c hcc
      have hsveq : sv' = ⟨name0, p⟩ := huS sv' hsv' ⟨name0, p⟩ hmm.1 (by rw [hname, he])
      rw [hsveq] at hlook
      rw [hres0 b hb] at hlook
      exact Option.noConfusion hlook
    · intro c hcc he
      obtain ⟨kv, hkv, hkve, _⟩ := kmsCallsOf_mem e kvs c hcc
      exact huSK ⟨name0, p⟩ hmm.1 kv hkv (hkve.trans he).symm
end SsmEnv

namespace SsmEnv

/-- Witness for the amended C3 at the Go test's input
`SUPER_SECRET=ssm://secret`: strict mode errors naming the entry,
best-effort mode requests the malformed key `secret` and keeps the
literal. -/
theorem c3_malformed_reference_witness :
    (environList [("SUPER_SECRET", "ssm://secret")] =
        [] ++ "SUPER_SECRET=ssm://secret" :: [] ∧
      splitVar "SUPER_SECRET=ssm://secret" = some ("SUPER_SECRET", "ssm://secret") ∧
      parameter c3exp "SUPER_SECRET" "ssm://secret" = .ok (some "secret") ∧
      goHasPre "secret" "/" = false ∧
      classifyLoop c3exp true (environList [("SUPER_SECRET", "ssm://secret")]) [] [] [] =
        .ok ([⟨"SUPER_SECRET", "secret"⟩], [], ["secret"])) ∧
    (expandEnviron c3exp false false [("SUPER_SECRET", "ssm://secret")]).err =
      some (.malformedParameterError "SUPER_SECRET=ssm://secret") ∧
    "secret" ∈ (["secret"] : List String) ∧
    (∃ b ∈ (expandEnviron c3exp false true
      [("SUPER_SECRET", "ssm://secret")]).ssmCalls, "secret" ∈ b) ∧
    ("SUPER_SECRET", "ssm://secret") ∈
      (expandEnviron c3exp false true [("SUPER_SECRET", "ssm://secret")]).env := by
  have h := c3_malformed_reference c3exp false [("SUPER_SECRET", "ssm://secret")]
    [] [] "SUPER_SECRET=ssm://secret" [] [] []
    "SUPER_SECRET" "ssm://secret" "ssm://secret" "secret"
    [⟨"SUPER_SECRET", "secret"⟩] [] ["secret"]
    (by decide) (by decide) (by rfl) (by rfl) (by decide) (by rfl) (by rfl)
    (by decide) (by rfl) (by decide) (by rfl) (by decide) (by decide)
  exact ⟨⟨by rfl, by rfl, by rfl, by decide, by rfl⟩, h.1, h.2.1, h.2.2.1, h.2.2.2⟩

end SsmEnv
